import Mathlib

/-!
# Code-to-HTML highlighter (`src/main.cpp`)

A shallow embedding of the decorator chain of `src/main.cpp`:
`BasicCodeToHTML`, `KeywordHighlighter`, `StringLiteralHighlighter` and
`CommentHighlighter`, together with the fragment of `std::regex`
(ECMAScript grammar, `std::regex_replace` with the default format flags)
that the four classes use.

A `std::string` is a `List Char`; each `Char` stands for one `char` of the
C++ string.
-/

namespace CodeToHTML

/-- A `std::string`, one `Char` per `char`. -/
abbrev Str := List Char

/-! ## The `std::regex` fragment used by the program -/

/-- A pattern element that consumes exactly one character. -/
inductive Atom where
  /-- An ordinary pattern character, matching itself. -/
  | chr (c : Char)
  /-- The pattern `.`: any character except the line terminators. -/
  | dot
  /-- The class `[\s\S]`: a white-space character or a non-white-space one. -/
  | spaceOrNonSpace
  deriving DecidableEq, Repr

/-- White space as `\s` classifies it for `char` in the classic locale. -/
def isSpaceChar (c : Char) : Bool :=
  c == ' ' || c == '\t' || c == '\n' || c == '\x0b' || c == '\x0c' || c == '\r'

/-- Word characters as `\b` classifies them for `char` in the classic locale:
letters, digits and the underscore. -/
def isWordChar (c : Char) : Bool :=
  c.isAlphanum || c == '_'

/-- Whether an atom accepts a character. -/
def Atom.accepts : Atom → Char → Bool
  | .chr c, x => x == c
  | .dot, x => !(x == '\n' || x == '\r')
  | .spaceOrNonSpace, x => isSpaceChar x || !isSpaceChar x

/-- The elements of the patterns of `src/main.cpp`. -/
inductive Node where
  /-- One atom. -/
  | atom (a : Atom)
  /-- The assertion `\b`. -/
  | wordBoundary
  /-- The capturing lazy repetition `(a*?)`; it is capture group 1. -/
  | lazyGroup (a : Atom)
  deriving DecidableEq, Repr

/-- A pattern: a sequence of nodes. -/
abbrev Regex := List Node

/-- One match: the matched text (`$&`), capture group 1 (`$1`), and the
input that follows the match. -/
structure Match where
  whole : Str
  group1 : Str
  suffix : Str
  deriving DecidableEq, Repr

/-- The assertion `\b` at a position: the character before the position
(`none` at the start of the input) and the character at the position (none at
its end) differ in being word characters. -/
def atWordBoundary (prev : Option Char) (s : Str) : Bool :=
  (match prev with
    | some p => isWordChar p
    | none => false) !=
  (match s with
    | c :: _ => isWordChar c
    | [] => false)

/-- Extends a match of the rest of the pattern by a character consumed
outside the capture group. -/
def Match.consume (c : Char) (m : Match) : Match :=
  { m with whole := c :: m.whole }

/-- Extends a match of the rest of the pattern by a character consumed
inside the capture group. -/
def Match.capture (c : Char) (m : Match) : Match :=
  { m with whole := c :: m.whole, group1 := c :: m.group1 }

/-- The lazy repetition `a*?` followed by the continuation `k`: the
continuation is tried first, and only when it fails is one more character
given to the repetition. -/
def lazyStar (a : Atom) (k : Option Char → Str → Option Match) :
    Option Char → Str → Option Match
  | prev, [] => k prev []
  | prev, c :: t =>
    match k prev (c :: t) with
    | some m => some m
    | none => if a.accepts c then (lazyStar a k (some c) t).map (Match.capture c) else none

/-- The backtracking matcher anchored at the current position: `prev` is the
character before the position and `s` the input from the position on. -/
def matchHere : Regex → Option Char → Str → Option Match
  | [], _, s => some ⟨[], [], s⟩
  | .atom a :: r, _, s =>
    match s with
    | c :: t => if a.accepts c then (matchHere r (some c) t).map (Match.consume c) else none
    | [] => none
  | .wordBoundary :: r, prev, s =>
    if atWordBoundary prev s then matchHere r prev s else none
  | .lazyGroup a :: r, prev, s => lazyStar a (matchHere r) prev s

/-- Expansion of a replacement format string: `$1` stands for capture
group 1, every other character for itself. -/
def formatReplacement (m : Match) : Str → Str
  | '$' :: '1' :: t => m.group1 ++ formatReplacement m t
  | c :: t => c :: formatReplacement m t
  | [] => []

/-- What a scan of the input yields at one position: a character outside
every match, or a match. -/
inductive Piece where
  /-- A character copied to the output unchanged. -/
  | copied (c : Char)
  /-- A match, to be replaced by the expanded format. -/
  | matched (m : Match)
  deriving DecidableEq, Repr

/-- The match at a position, when it is not empty. None of the program's
patterns matches the empty string; an empty match is passed over like a
failed one. -/
def nonEmptyMatch (re : Regex) (prev : Option Char) (s : Str) : Option Match :=
  match matchHere re prev s with
  | some m => if m.whole = [] then none else some m
  | none => none

/-- The successive matches that `std::regex_replace` iterates over, with the
characters between them: at each position the pattern is tried; after a match
the scan resumes right after it, otherwise it moves one character on. `prev`
is the character before the position, `fuel` bounds the number of positions
visited. -/
def regexScan (re : Regex) : Nat → Option Char → Str → List Piece
  | 0, _, s => s.map Piece.copied
  | fuel + 1, prev, s =>
    match nonEmptyMatch re prev s with
    | some m => Piece.matched m :: regexScan re fuel m.whole.getLast? m.suffix
    | none =>
      match s with
      | [] => []
      | c :: t => Piece.copied c :: regexScan re fuel (some c) t

/-- The text that `std::regex_replace` writes for one piece of the scan. -/
def Piece.render (fmt : Str) : Piece → Str
  | .copied c => [c]
  | .matched m => formatReplacement m fmt

/-- The call `std::regex_replace(s, re, fmt)`. -/
def regex_replace (s : Str) (re : Regex) (fmt : Str) : Str :=
  ((regexScan re (s.length + 1) none s).map (Piece.render fmt)).flatten

/-! ## The converters -/

/-- The method `BasicCodeToHTML::convert`. -/
def BasicCodeToHTML.convert (code : Str) : Str :=
  let html := "<pre><code>".toList
  let html := code.foldl (fun html c =>
    if c = '<' then html ++ "&lt;".toList
    else if c = '>' then html ++ "&gt;".toList
    else html ++ [c]) html
  html ++ "</code></pre>".toList

/-- The member `keywords` as the constructor of `KeywordHighlighter` fills it. -/
def keywords : List Str :=
  ["int".toList, "return".toList, "if".toList, "else".toList, "for".toList,
   "while".toList, "class".toList, "public".toList, "private".toList, "void".toList]

/-- The pattern `"\\b" + keyword + "\\b"`. -/
def keywordRegex (keyword : Str) : Regex :=
  [Node.wordBoundary] ++ keyword.map (fun c => Node.atom (Atom.chr c)) ++ [Node.wordBoundary]

/-- The format string of the keyword replacement. -/
def keywordFormat (keyword : Str) : Str :=
  "<span style='color: blue; font-weight: bold;'>".toList ++ keyword ++ "</span>".toList

/-- The loop of `KeywordHighlighter::convert` on the text `html`. -/
def keywordStage (html : Str) : Str :=
  keywords.foldl (fun html keyword =>
    regex_replace html (keywordRegex keyword) (keywordFormat keyword)) html

/-- The method `KeywordHighlighter::convert` over a wrapped converter. -/
def KeywordHighlighter.convert (wrappedConverter : Str → Str) (code : Str) : Str :=
  keywordStage (wrappedConverter code)

/-- The pattern `"(.*?)"`. -/
def stringRegex : Regex :=
  [Node.atom (Atom.chr '"'), Node.lazyGroup Atom.dot, Node.atom (Atom.chr '"')]

/-- The format string of the string-literal replacement. -/
def stringFormat : Str := "<span style='color: green;'>\"$1\"</span>".toList

/-- The replacement of `StringLiteralHighlighter::convert` on the text `html`. -/
def stringStage (html : Str) : Str :=
  regex_replace html stringRegex stringFormat

/-- The method `StringLiteralHighlighter::convert` over a wrapped converter. -/
def StringLiteralHighlighter.convert (wrappedConverter : Str → Str) (code : Str) : Str :=
  stringStage (wrappedConverter code)

/-- The pattern `//(.*?)\n`. -/
def singleLineCommentRegex : Regex :=
  [Node.atom (Atom.chr '/'), Node.atom (Atom.chr '/'), Node.lazyGroup Atom.dot,
   Node.atom (Atom.chr '\n')]

/-- The format string of the single-line comment replacement. -/
def singleLineCommentFormat : Str := "<span style='color: gray;'>//$1</span>\n".toList

/-- The pattern `/\*([\s\S]*?)\*/`. -/
def multiLineCommentRegex : Regex :=
  [Node.atom (Atom.chr '/'), Node.atom (Atom.chr '*'), Node.lazyGroup Atom.spaceOrNonSpace,
   Node.atom (Atom.chr '*'), Node.atom (Atom.chr '/')]

/-- The format string of the block comment replacement. -/
def multiLineCommentFormat : Str := "<span style='color: gray;'>/*$1*/</span>".toList

/-- The first replacement of `CommentHighlighter::convert`. -/
def singleLinePass (html : Str) : Str :=
  regex_replace html singleLineCommentRegex singleLineCommentFormat

/-- The second replacement of `CommentHighlighter::convert`. -/
def blockPass (html : Str) : Str :=
  regex_replace html multiLineCommentRegex multiLineCommentFormat

/-- Both replacements of `CommentHighlighter::convert` on the text `html`. -/
def commentStage (html : Str) : Str :=
  blockPass (singleLinePass html)

/-- The method `CommentHighlighter::convert` over a wrapped converter. -/
def CommentHighlighter.convert (wrappedConverter : Str → Str) (code : Str) : Str :=
  commentStage (wrappedConverter code)

/-- The converter `commentHighlighter` that `main` builds. -/
def pipeline (code : Str) : Str :=
  CommentHighlighter.convert
    (StringLiteralHighlighter.convert
      (KeywordHighlighter.convert BasicCodeToHTML.convert)) code

/-! ## Definitions used to state the properties -/

/-- The image of one source character under the escaper. -/
def charImage (c : Char) : Str :=
  if c = '<' then "&lt;".toList else if c = '>' then "&gt;".toList else [c]

/-- Replaces every `&lt;` by `<` and every `&gt;` by `>`, reading left to right. -/
def unescapeEntities : Str → Str
  | '&' :: 'l' :: 't' :: ';' :: t => '<' :: unescapeEntities t
  | '&' :: 'g' :: 't' :: ';' :: t => '>' :: unescapeEntities t
  | c :: t => c :: unescapeEntities t
  | [] => []

/-- Removes the leading `<pre><code>` and the trailing `</code></pre>`. -/
def stripWrapper (html : Str) : Str :=
  let inner := html.drop "<pre><code>".toList.length
  inner.take (inner.length - "</code></pre>".toList.length)

/-- The scan of `std::regex_replace` over `s`, with the character `prev` before it. -/
def scanFrom (re : Regex) (prev : Option Char) (s : Str) : List Piece :=
  regexScan re (s.length + 1) prev s

/-- The output that `std::regex_replace` writes for a scan. -/
def renderAll (fmt : Str) (ps : List Piece) : Str :=
  (ps.map (Piece.render fmt)).flatten

/-- The last character of `w`, or `prev` when `w` is empty: the character
before the position reached after reading `w`. -/
def lastOr (prev : Option Char) (w : Str) : Option Char :=
  match w.getLast? with
  | some c => some c
  | none => prev

/-- The pattern made of the ordinary characters of `l`. -/
def lits (l : Str) : Regex :=
  l.map (fun c => Node.atom (Atom.chr c))

/-- The pattern `l₁(a*?)l₂` for literal texts `l₁` and `l₂`. -/
def delimited (l₁ : Str) (a : Atom) (l₂ : Str) : Regex :=
  lits l₁ ++ [Node.lazyGroup a] ++ lits l₂


/-- Whether the character before a position is a word character. -/
def prevIsWord (prev : Option Char) : Bool :=
  match prev with
  | some p => isWordChar p
  | none => false

/-- Whether a text starts with a word character. -/
def startsWithWord (s : Str) : Bool :=
  match s with
  | c :: _ => isWordChar c
  | [] => false

/-- A finished run of word characters, wrapped in the keyword span when it is
one of `kws`. -/
def wrapIfKeyword (kws : List Str) (run : Str) : Str :=
  if run ∈ kws then keywordFormat run else run

/-- The text in which every maximal run of letters, digits and underscores that
is one of `kws` is wrapped in the keyword span and every other character is
kept: the text is read left to right, `run` holding the word characters read
since the last character that is not one. -/
def wrapKeywordRuns (kws : List Str) : Str → Str → Str
  | run, [] => wrapIfKeyword kws run
  | run, c :: t =>
    if isWordChar c then wrapKeywordRuns kws (run ++ [c]) t
    else wrapIfKeyword kws run ++ c :: wrapKeywordRuns kws [] t

/-- The eight tags that the converters write. -/
def tags : List Str :=
  ["<pre>".toList, "<code>".toList, "</code>".toList, "</pre>".toList,
   "<span style='color: blue; font-weight: bold;'>".toList,
   "<span style='color: green;'>".toList, "<span style='color: gray;'>".toList,
   "</span>".toList]

/-- A piece of the output: one of the eight tags, or one character other than
`<` and `>`. -/
def IsPiece (p : Str) : Prop :=
  p ∈ tags ∨ ∃ c : Char, p = [c] ∧ c ≠ '<' ∧ c ≠ '>'

/-- Characters other than `<` and `>`. -/
def isPlainChar (c : Char) : Bool :=
  c != '<' && c != '>'

/-- A text that is a concatenation of blocks of `U` and of single characters
other than `<` and `>`. -/
inductive Tiled (U : List Str) : Str → Prop where
  | nil : Tiled U []
  | char (c : Char) (t : Str) : isPlainChar c = true → Tiled U t → Tiled U (c :: t)
  | block (b t : Str) : b ∈ U → Tiled U t → Tiled U (b ++ t)

/-- A scan that respects a tiling of its input: it copies plain characters and
whole blocks of `U`, and capture group 1 of each of its matches is tiled. -/
inductive TiledScan (U : List Str) : List Piece → Prop where
  | nil : TiledScan U []
  | char (c : Char) (ps : List Piece) :
      isPlainChar c = true → TiledScan U ps → TiledScan U (Piece.copied c :: ps)
  | block (b : Str) (ps : List Piece) :
      b ∈ U → TiledScan U ps → TiledScan U (b.map Piece.copied ++ ps)
  | hit (m : Match) (ps : List Piece) :
      Tiled U m.group1 → TiledScan U ps → TiledScan U (Piece.matched m :: ps)

/-- The two tags that open the wrapper and the two that close it. -/
def wrapperTags : List Str :=
  ["<pre>".toList, "<code>".toList, "</code>".toList, "</pre>".toList]

/-- The wrapper tags and the ten keyword spans, each span taken whole. -/
def keywordUnits : List Str :=
  wrapperTags ++ keywords.map keywordFormat

/-- The text that `CommentHighlighter::convert` receives from the converter it
wraps in `main`. -/
def beforeComments (code : Str) : Str :=
  StringLiteralHighlighter.convert (KeywordHighlighter.convert BasicCodeToHTML.convert) code

/-- The matches that `std::regex_replace` finds in a text, in order. -/
def regexMatches (re : Regex) (s : Str) : List Match :=
  (scanFrom re none s).filterMap (fun x =>
    match x with
    | Piece.matched m => some m
    | Piece.copied _ => none)

/-- The texts that the single-line pass puts inside a span: `//$1` for each match. -/
def singleLineWrapped (html : Str) : List Str :=
  (regexMatches singleLineCommentRegex html).map (fun m => "//".toList ++ m.group1)

/-- The texts that the block pass puts inside a span: `/*$1*/` for each match. -/
def blockWrapped (html : Str) : List Str :=
  (regexMatches multiLineCommentRegex html).map
    (fun m => "/*".toList ++ m.group1 ++ "*/".toList)

/-- Whether the span tags of a text nest properly, read left to right from the
depth `d`: `<span ` opens a span and `</span>` closes the last open one; a
`</span>` with no span open fails, and at the end no span may be open. -/
def spansNested : Nat → Str → Bool
  | d, [] => d == 0
  | d, c :: t =>
    if "<span ".toList.isPrefixOf (c :: t) then spansNested (d + 1) t
    else if "</span>".toList.isPrefixOf (c :: t) then d != 0 && spansNested (d - 1) t
    else spansNested d t

/-- Two neighbouring characters that are not both `/`. -/
abbrev NotSlashPair (x y : Char) : Prop :=
  ¬ (x = '/' ∧ y = '/')

/-- The number of positions of a text at which `pat` starts. -/
def countStarts (pat : Str) : Str → Nat
  | [] => 0
  | c :: t => (if pat.isPrefixOf (c :: t) then 1 else 0) + countStarts pat t

/-- A text that is a concatenation of blocks that satisfy `B` and of single
characters other than `<` and `>`. -/
inductive TiledBy (B : Str → Prop) : Str → Prop where
  | nil : TiledBy B []
  | char (c : Char) (t : Str) : isPlainChar c = true → TiledBy B t → TiledBy B (c :: t)
  | block (b t : Str) : B b → TiledBy B t → TiledBy B (b ++ t)

/-- Two neighbouring characters that are not `c` followed by `d`. -/
abbrev NotPair (c d x y : Char) : Prop :=
  ¬ (x = c ∧ y = d)

/-- The text that `StringLiteralHighlighter::convert` receives from the converter
it wraps in `main`. -/
def beforeStrings (code : Str) : Str :=
  KeywordHighlighter.convert BasicCodeToHTML.convert code

/-- The texts that the string stage puts inside a span: `"$1"` for each match. -/
def stringWrapped (html : Str) : List Str :=
  (regexMatches stringRegex html).map (fun m => "\"".toList ++ m.group1 ++ "\"".toList)

/-- A string span whose content is tiled by wrapper tags, keyword spans and plain
characters, holds no line feed, and satisfies `P`. -/
def StringSpan (P : Str → Prop) (b : Str) : Prop :=
  ∃ g : Str, b = "<span style='color: green;'>\"".toList ++ (g ++ "\"</span>".toList) ∧
    TiledBy (fun u => u ∈ keywordUnits) g ∧ '\n' ∉ g ∧ P g

/-- The blocks of the output of the string stage: wrapper tags, keyword spans and
string spans, each taken whole. -/
def StringTiles (P : Str → Prop) (b : Str) : Prop :=
  b ∈ keywordUnits ∨ StringSpan P b

/-- A single-line comment span whose content is tiled by the blocks of the string
stage and whose wrapped text `//$1` satisfies `Pw`. -/
def LineSpan (P Pw : Str → Prop) (b : Str) : Prop :=
  ∃ g : Str, b = "<span style='color: gray;'>".toList ++ (("//".toList ++ g) ++ "</span>".toList) ∧
    TiledBy (StringTiles P) g ∧ Pw ("//".toList ++ g)

/-- The blocks of the output of the single-line pass: those of the string stage
and single-line comment spans, each taken whole. -/
def CommentTiles (P Pw : Str → Prop) (b : Str) : Prop :=
  StringTiles P b ∨ LineSpan P Pw b

/-! ## The escaper -/

theorem foldl_append_image (f : Char → Str) (s : Str) (init : Str) :
    s.foldl (fun html c => html ++ f c) init = init ++ (s.map f).flatten := by
  induction s generalizing init with
  | nil => simp
  | cons c t ih => simp [List.foldl_cons, ih, List.append_assoc]

theorem convert_eq (s : Str) :
    BasicCodeToHTML.convert s =
      "<pre><code>".toList ++ (s.map charImage).flatten ++ "</code></pre>".toList := by
  have h : (fun (html : Str) (c : Char) =>
      if c = '<' then html ++ "&lt;".toList
      else if c = '>' then html ++ "&gt;".toList
      else html ++ [c]) = fun html c => html ++ charImage c := by
    funext html c
    unfold charImage
    split_ifs <;> rfl
  unfold BasicCodeToHTML.convert
  simp only [h, foldl_append_image]

theorem charImage_no_angle (c x : Char) (hx : x ∈ charImage c) : x ≠ '<' ∧ x ≠ '>' := by
  unfold charImage at hx
  split_ifs at hx with h1 h2
  · revert x; decide
  · revert x; decide
  · simp only [List.mem_singleton] at hx
    subst hx
    exact ⟨h1, h2⟩

theorem image_no_angle (s : Str) (x : Char) (hx : x ∈ (s.map charImage).flatten) :
    x ≠ '<' ∧ x ≠ '>' := by
  simp only [List.mem_flatten, List.mem_map] at hx
  obtain ⟨l, ⟨c, _, rfl⟩, hxl⟩ := hx
  exact charImage_no_angle c x hxl

theorem image_cons {t : Str} {a : Char} {Y : Str}
    (h : (t.map charImage).flatten = a :: Y) (ha : a ≠ '&') :
    ∃ t', t = a :: t' ∧ Y = (t'.map charImage).flatten := by
  cases t with
  | nil => simp at h
  | cons c t' =>
    simp only [List.map_cons, List.flatten_cons, charImage] at h
    split_ifs at h with h1 h2
    · simp at h; exact absurd h.1.symm ha
    · simp at h; exact absurd h.1.symm ha
    · simp at h; exact ⟨t', by rw [h.1], h.2.symm⟩

theorem image_entity {t : Str} {a b c : Char} {Y : Str}
    (h : (t.map charImage).flatten = a :: b :: c :: Y)
    (ha : a ≠ '&') (hb : b ≠ '&') (hc : c ≠ '&') :
    ∃ t', t = a :: b :: c :: t' := by
  obtain ⟨t1, rfl, h1⟩ := image_cons h ha
  obtain ⟨t2, rfl, h2⟩ := image_cons h1.symm hb
  obtain ⟨t3, rfl, _⟩ := image_cons h2.symm hc
  exact ⟨t3, rfl⟩

theorem unescape_image (s : Str)
    (hlt : ¬ "&lt;".toList <:+: s) (hgt : ¬ "&gt;".toList <:+: s) :
    unescapeEntities (s.map charImage).flatten = s := by
  induction s with
  | nil => rfl
  | cons c t ih =>
    have hlt' : ¬ "&lt;".toList <:+: t := fun h => hlt (h.trans (List.suffix_cons c t).isInfix)
    have hgt' : ¬ "&gt;".toList <:+: t := fun h => hgt (h.trans (List.suffix_cons c t).isInfix)
    have iht := ih hlt' hgt'
    simp only [List.map_cons, List.flatten_cons, charImage]
    split_ifs with h1 h2
    · subst h1
      show unescapeEntities ('&' :: 'l' :: 't' :: ';' :: (t.map charImage).flatten) = _
      rw [unescapeEntities, iht]
    · subst h2
      show unescapeEntities ('&' :: 'g' :: 't' :: ';' :: (t.map charImage).flatten) = _
      rw [unescapeEntities, iht]
    · show unescapeEntities (c :: (t.map charImage).flatten) = _
      rw [unescapeEntities.eq_3, iht]
      · intro Y hc hY
        obtain ⟨t', rfl⟩ := image_entity hY (by decide) (by decide) (by decide)
        subst hc
        exact hlt (List.prefix_append _ t').isInfix
      · intro Y hc hY
        obtain ⟨t', rfl⟩ := image_entity hY (by decide) (by decide) (by decide)
        subst hc
        exact hgt (List.prefix_append _ t').isInfix

theorem strip_wrapped (body : Str) :
    stripWrapper ("<pre><code>".toList ++ body ++ "</code></pre>".toList) = body := by
  unfold stripWrapper
  simp [List.drop_append, List.take_append]

/-! ## The matcher -/

theorem lazyStar_sound (a : Atom) (k : Option Char → Str → Option Match)
    (hk : ∀ p s m, k p s = some m → s = m.whole ++ m.suffix) :
    ∀ s p m, lazyStar a k p s = some m → s = m.whole ++ m.suffix := by
  intro s
  induction s with
  | nil => intro p m h; exact hk p [] m (by simpa [lazyStar] using h)
  | cons c t ih =>
    intro p m h
    rw [lazyStar] at h
    cases hkc : k p (c :: t) with
    | some m' =>
      rw [hkc] at h
      simp only [Option.some.injEq] at h
      subst h
      exact hk p _ _ hkc
    | none =>
      rw [hkc] at h
      simp only at h
      split_ifs at h with hacc
      cases hl : lazyStar a k (some c) t with
      | none => rw [hl] at h; simp at h
      | some m' =>
        rw [hl] at h
        simp only [Option.map_some', Option.some.injEq] at h
        subst h
        have := ih _ _ hl
        simp [Match.capture, ← this]

theorem matchHere_sound : ∀ (re : Regex) (p : Option Char) (s : Str) (m : Match),
    matchHere re p s = some m → s = m.whole ++ m.suffix := by
  intro re
  induction re with
  | nil =>
    intro p s m h
    simp only [matchHere, Option.some.injEq] at h
    subst h
    rfl
  | cons n r ih =>
    intro p s m h
    cases n with
    | atom a =>
      cases s with
      | nil => simp [matchHere] at h
      | cons c t =>
        simp only [matchHere] at h
        split_ifs at h with hacc
        cases hr : matchHere r (some c) t with
        | none => rw [hr] at h; simp at h
        | some m' =>
          rw [hr] at h
          simp only [Option.map_some', Option.some.injEq] at h
          subst h
          have := ih _ _ _ hr
          simp [Match.consume, ← this]
    | wordBoundary =>
      simp only [matchHere] at h
      split_ifs at h with hb
      exact ih _ _ _ h
    | lazyGroup a =>
      simp only [matchHere] at h
      exact lazyStar_sound a (matchHere r) ih s p m h
theorem lastOr_nil (p : Option Char) : lastOr p [] = p := rfl

theorem lastOr_cons (p : Option Char) (c : Char) (w : Str) :
    lastOr p (c :: w) = lastOr (some c) w := by
  cases w with
  | nil => rfl
  | cons d w' =>
    unfold lastOr
    rw [List.getLast?_cons_cons]
    cases h : (d :: w').getLast? with
    | none => simp at h
    | some x => rfl

theorem lastOr_append (p : Option Char) (u v : Str) :
    lastOr p (u ++ v) = lastOr (lastOr p u) v := by
  induction u generalizing p with
  | nil => rfl
  | cons c u ih => rw [List.cons_append, lastOr_cons, lastOr_cons, ih]

theorem lastOr_of_ne_nil (p q : Option Char) (w : Str) (hw : w ≠ []) :
    lastOr p w = lastOr q w := by
  cases w with
  | nil => exact absurd rfl hw
  | cons c w' => rw [lastOr_cons, lastOr_cons]

theorem getLast?_eq_lastOr (w : Str) : w.getLast? = lastOr none w := by
  unfold lastOr
  cases w.getLast? <;> rfl

/-- A literal prefix of the pattern matches exactly when the input starts with it. -/
theorem matchHere_lits_append (l : Str) (r : Regex) (p : Option Char) (s : Str) :
    matchHere (lits l ++ r) p (l ++ s) =
      (matchHere r (lastOr p l) s).map
        (fun m => ⟨l ++ m.whole, m.group1, m.suffix⟩) := by
  induction l generalizing p with
  | nil =>
    simp only [lits, List.map_nil, List.nil_append, lastOr_nil]
    cases matchHere r p s <;> rfl
  | cons c l ih =>
    show matchHere (Node.atom (Atom.chr c) :: (lits l ++ r)) p (c :: (l ++ s)) = _
    simp only [matchHere, Atom.accepts, beq_self_eq_true, if_true, ih (some c), lastOr_cons]
    cases matchHere r (lastOr (some c) l) s <;> rfl

theorem matchHere_lits_starts (l : Str) (r : Regex) (p : Option Char) (s : Str) (m : Match)
    (h : matchHere (lits l ++ r) p s = some m) : l <+: s := by
  induction l generalizing p s m with
  | nil => exact List.nil_prefix
  | cons c l ih =>
    cases s with
    | nil => simp [lits, matchHere] at h
    | cons x t =>
      change matchHere (Node.atom (Atom.chr c) :: (lits l ++ r)) p (x :: t) = some m at h
      simp only [matchHere, Atom.accepts] at h
      split_ifs at h with hx
      simp only [beq_iff_eq] at hx
      subst hx
      cases hr : matchHere (lits l ++ r) (some x) t with
      | none => rw [hr] at h; simp at h
      | some m' =>
        have := ih (some x) t m' hr
        exact List.cons_prefix_cons.mpr ⟨rfl, this⟩

/-- What a successful lazy repetition looks like. -/
theorem lazyStar_some (a : Atom) (k : Option Char → Str → Option Match) :
    ∀ s p m, lazyStar a k p s = some m →
      ∃ g r q m', s = g ++ r ∧ k q r = some m' ∧ (∀ c ∈ g, a.accepts c = true) ∧
        m = ⟨g ++ m'.whole, g ++ m'.group1, m'.suffix⟩ := by
  intro s
  induction s with
  | nil =>
    intro p m h
    exact ⟨[], [], p, m, rfl, by simpa [lazyStar] using h, by simp, rfl⟩
  | cons c t ih =>
    intro p m h
    rw [lazyStar] at h
    cases hkc : k p (c :: t) with
    | some m' =>
      rw [hkc] at h
      simp only [Option.some.injEq] at h
      subst h
      exact ⟨[], c :: t, p, m', rfl, hkc, by simp, rfl⟩
    | none =>
      rw [hkc] at h
      simp only at h
      split_ifs at h with hacc
      cases hl : lazyStar a k (some c) t with
      | none => rw [hl] at h; simp at h
      | some m' =>
        rw [hl] at h
        simp only [Option.map_some', Option.some.injEq] at h
        subst h
        obtain ⟨g, r, q, m'', rfl, hk, hg, rfl⟩ := ih _ _ hl
        refine ⟨c :: g, r, q, m'', rfl, hk, ?_, rfl⟩
        intro x hx
        rcases List.mem_cons.mp hx with rfl | hx
        · exact hacc
        · exact hg x hx

/-- The lazy repetition stops at the first position where the continuation succeeds. -/
theorem lazyStar_found (a : Atom) (k : Option Char → Str → Option Match)
    (g r : Str) (m' : Match)
    (hg : ∀ c ∈ g, a.accepts c = true)
    (hfail : ∀ u x v q, g = u ++ x :: v → k q (x :: v ++ r) = none)
    (hk : ∀ q, k q r = some m') (p : Option Char) :
    lazyStar a k p (g ++ r) = some ⟨g ++ m'.whole, g ++ m'.group1, m'.suffix⟩ := by
  induction g generalizing p with
  | nil =>
    simp only [List.nil_append]
    cases r with
    | nil => rw [lazyStar, hk]
    | cons c t => rw [lazyStar, hk]
  | cons c g ih =>
    have h0 : k p (c :: (g ++ r)) = none := hfail [] c g p rfl
    rw [List.cons_append, lazyStar, h0]
    simp only [hg c (List.mem_cons_self _ _), if_true]
    rw [ih (fun x hx => hg x (List.mem_cons_of_mem _ hx))
      (fun u x v q h => hfail (c :: u) x v q (by rw [h]; rfl))]
    rfl

/-- A pattern without `\b` does not look at the character before the position. -/
theorem lazyStar_prev (a : Atom) (k : Option Char → Str → Option Match)
    (hk : ∀ p q s, k p s = k q s) : ∀ s p q, lazyStar a k p s = lazyStar a k q s := by
  intro s
  induction s with
  | nil => intro p q; simp only [lazyStar]; exact hk p q []
  | cons c t ih =>
    intro p q
    rw [lazyStar, lazyStar, hk p q (c :: t)]

theorem matchHere_prev (re : Regex) (hre : Node.wordBoundary ∉ re) :
    ∀ p q s, matchHere re p s = matchHere re q s := by
  induction re with
  | nil => intro p q s; rfl
  | cons n r ih =>
    have ihr := ih (fun h => hre (List.mem_cons_of_mem _ h))
    intro p q s
    cases n with
    | atom a => cases s <;> simp only [matchHere]
    | wordBoundary => exact absurd (List.mem_cons_self _ _) hre
    | lazyGroup a =>
      simp only [matchHere]
      exact lazyStar_prev a _ ihr s p q
/-! ## The scan -/

theorem nonEmptyMatch_some {re : Regex} {p : Option Char} {s : Str} {m : Match}
    (h : nonEmptyMatch re p s = some m) :
    matchHere re p s = some m ∧ m.whole ≠ [] ∧ s = m.whole ++ m.suffix := by
  unfold nonEmptyMatch at h
  cases hm : matchHere re p s with
  | none => rw [hm] at h; simp at h
  | some m' =>
    rw [hm] at h
    simp only at h
    split_ifs at h with hw
    simp only [Option.some.injEq] at h
    subst h
    exact ⟨rfl, hw, matchHere_sound re p s _ hm⟩

theorem nonEmptyMatch_of_match {re : Regex} {p : Option Char} {s : Str} {m : Match}
    (h : matchHere re p s = some m) (hw : m.whole ≠ []) : nonEmptyMatch re p s = some m := by
  unfold nonEmptyMatch
  rw [h]
  simp only [hw, if_false]

theorem nonEmptyMatch_of_none {re : Regex} {p : Option Char} {s : Str}
    (h : matchHere re p s = none) : nonEmptyMatch re p s = none := by
  unfold nonEmptyMatch
  rw [h]

theorem nonEmptyMatch_nil (re : Regex) (p : Option Char) : nonEmptyMatch re p [] = none := by
  cases h : nonEmptyMatch re p [] with
  | none => rfl
  | some m =>
    obtain ⟨_, hw, hs⟩ := nonEmptyMatch_some h
    cases hmw : m.whole with
    | nil => exact absurd hmw hw
    | cons x ws => rw [hmw] at hs; simp at hs

theorem regexScan_succ (re : Regex) (n : Nat) (p : Option Char) (s : Str) :
    regexScan re (n + 1) p s =
      match nonEmptyMatch re p s with
      | some m => Piece.matched m :: regexScan re n m.whole.getLast? m.suffix
      | none =>
        match s with
        | [] => []
        | c :: t => Piece.copied c :: regexScan re n (some c) t := rfl

/-- Fuel beyond the length of the input does not change the scan. -/
theorem regexScan_fuel_eq (re : Regex) : ∀ (n k : Nat) (p : Option Char) (s : Str),
    s.length < n → s.length < k → regexScan re n p s = regexScan re k p s := by
  intro n
  induction n with
  | zero => intro k p s h; exact absurd h (Nat.not_lt_zero _)
  | succ n ih =>
    intro k p s h hk
    cases k with
    | zero => exact absurd hk (Nat.not_lt_zero _)
    | succ k =>
      rw [regexScan_succ, regexScan_succ]
      cases hm : nonEmptyMatch re p s with
      | none =>
        cases s with
        | nil => rfl
        | cons c t =>
          simp only
          rw [ih k (some c) t (by simpa using h) (by simpa using hk)]
      | some m =>
        simp only
        obtain ⟨_, hw, hs⟩ := nonEmptyMatch_some hm
        have hlen : m.suffix.length < s.length := by
          have : 0 < m.whole.length := List.length_pos.mpr hw
          rw [hs, List.length_append]; omega
        rw [ih k _ m.suffix (by omega) (by omega)]

theorem regexScan_fuel (re : Regex) (n : Nat) (p : Option Char) (s : Str)
    (h : s.length < n) : regexScan re n p s = regexScan re (s.length + 1) p s :=
  regexScan_fuel_eq re n _ p s h (Nat.lt_succ_self _)

theorem scanFrom_nil (re : Regex) (p : Option Char) : scanFrom re p [] = [] := by
  unfold scanFrom
  rw [List.length_nil, regexScan_succ, nonEmptyMatch_nil]

theorem scanFrom_pass (re : Regex) (p : Option Char) (c : Char) (t : Str)
    (h : nonEmptyMatch re p (c :: t) = none) :
    scanFrom re p (c :: t) = Piece.copied c :: scanFrom re (some c) t := by
  unfold scanFrom
  rw [List.length_cons, regexScan_succ, h]

theorem scanFrom_miss (re : Regex) (p : Option Char) (c : Char) (t : Str)
    (h : matchHere re p (c :: t) = none) :
    scanFrom re p (c :: t) = Piece.copied c :: scanFrom re (some c) t :=
  scanFrom_pass re p c t (nonEmptyMatch_of_none h)

theorem scanFrom_found (re : Regex) (p : Option Char) (s : Str) (m : Match)
    (h : nonEmptyMatch re p s = some m) :
    scanFrom re p s = Piece.matched m :: scanFrom re (lastOr none m.whole) m.suffix := by
  unfold scanFrom
  rw [regexScan_succ, h]
  simp only
  obtain ⟨_, hw, hs⟩ := nonEmptyMatch_some h
  have hlen : m.suffix.length < s.length := by
    have : 0 < m.whole.length := List.length_pos.mpr hw
    rw [hs, List.length_append]; omega
  rw [regexScan_fuel re _ _ m.suffix hlen, getLast?_eq_lastOr]

theorem scanFrom_hit (re : Regex) (p : Option Char) (s : Str) (m : Match)
    (h : matchHere re p s = some m) (hw : m.whole ≠ []) :
    scanFrom re p s = Piece.matched m :: scanFrom re (lastOr none m.whole) m.suffix :=
  scanFrom_found re p s m (nonEmptyMatch_of_match h hw)

/-- A stretch of input in which the pattern matches at no position is copied. -/
theorem scanFrom_skip (re : Regex) (w rest : Str) (p : Option Char)
    (h : ∀ u x v, w = u ++ x :: v → matchHere re (lastOr p u) (x :: v ++ rest) = none) :
    scanFrom re p (w ++ rest) = w.map Piece.copied ++ scanFrom re (lastOr p w) rest := by
  induction w generalizing p with
  | nil => rfl
  | cons c w ih =>
    rw [List.cons_append, scanFrom_miss re p c (w ++ rest) (h [] c w rfl), lastOr_cons,
      ih (some c)]
    · rfl
    · intro u x v huv
      have := h (c :: u) x v (by rw [huv]; rfl)
      rwa [lastOr_cons] at this

theorem nonEmptyMatch_prev (re : Regex) (hre : Node.wordBoundary ∉ re) (p q : Option Char)
    (s : Str) : nonEmptyMatch re p s = nonEmptyMatch re q s := by
  unfold nonEmptyMatch
  rw [matchHere_prev re hre p q s]

theorem scanFrom_prev (re : Regex) (hre : Node.wordBoundary ∉ re) (s : Str) :
    ∀ p q, scanFrom re p s = scanFrom re q s := by
  obtain ⟨n, hn⟩ : ∃ n, s.length = n := ⟨_, rfl⟩
  induction n using Nat.strong_induction_on generalizing s with
  | _ n ih =>
    intro p q
    cases s with
    | nil => rw [scanFrom_nil, scanFrom_nil]
    | cons c t =>
      have hpq : nonEmptyMatch re q (c :: t) = nonEmptyMatch re p (c :: t) :=
        nonEmptyMatch_prev re hre _ _ _
      cases hm : nonEmptyMatch re p (c :: t) with
      | none =>
        rw [scanFrom_pass re p c t hm, scanFrom_pass re q c t (by rw [hpq, hm])]
      | some m =>
        rw [scanFrom_found re p _ m hm, scanFrom_found re q _ m (by rw [hpq, hm])]

theorem regex_replace_eq (s : Str) (re : Regex) (fmt : Str) :
    regex_replace s re fmt = renderAll fmt (scanFrom re none s) := rfl

theorem renderAll_nil (fmt : Str) : renderAll fmt [] = [] := rfl

theorem renderAll_cons (fmt : Str) (x : Piece) (ps : List Piece) :
    renderAll fmt (x :: ps) = x.render fmt ++ renderAll fmt ps := rfl

theorem renderAll_append (fmt : Str) (ps qs : List Piece) :
    renderAll fmt (ps ++ qs) = renderAll fmt ps ++ renderAll fmt qs := by
  simp [renderAll]

theorem renderAll_copied (fmt : Str) (w : Str) :
    renderAll fmt (w.map Piece.copied) = w := by
  induction w with
  | nil => rfl
  | cons c w ih => rw [List.map_cons, renderAll_cons, ih]; rfl
/-! ## Patterns of the form `l₁(a*?)l₂` -/

theorem matchHere_lits (l : Str) (p : Option Char) (s : Str) :
    matchHere (lits l) p (l ++ s) = some ⟨l, [], s⟩ := by
  have := matchHere_lits_append l [] p s
  rw [List.append_nil] at this
  rw [this]
  simp [matchHere]

theorem matchHere_lits_none (l : Str) (p : Option Char) (s : Str) (h : ¬ l <+: s) :
    matchHere (lits l) p s = none := by
  cases hm : matchHere (lits l) p s with
  | none => rfl
  | some m =>
    have hm' : matchHere (lits l ++ []) p s = some m := by rw [List.append_nil]; exact hm
    exact absurd (matchHere_lits_starts l [] p s m hm') h

theorem matchHere_lits_some (l : Str) (p : Option Char) (s : Str) (m : Match)
    (h : matchHere (lits l) p s = some m) : s = l ++ m.suffix ∧ m = ⟨l, [], m.suffix⟩ := by
  have hm' : matchHere (lits l ++ []) p s = some m := by rw [List.append_nil]; exact h
  obtain ⟨r, rfl⟩ := matchHere_lits_starts l [] p s m hm'
  rw [matchHere_lits] at h
  simp only [Option.some.injEq] at h
  subst h
  exact ⟨rfl, rfl⟩

theorem delimited_no_boundary (l₁ : Str) (a : Atom) (l₂ : Str) :
    Node.wordBoundary ∉ delimited l₁ a l₂ := by
  simp [delimited, lits]

/-- The pattern `l₁(a*?)l₂` matches `l₁ g l₂` when `a` accepts every character of
`g` and `l₂` does not start at an earlier position of `g`. -/
theorem delimited_found (l₁ : Str) (a : Atom) (l₂ g rest : Str) (p : Option Char)
    (hg : ∀ c ∈ g, a.accepts c = true)
    (hfirst : ∀ u x v, g = u ++ x :: v → ¬ l₂ <+: x :: v ++ (l₂ ++ rest)) :
    matchHere (delimited l₁ a l₂) p (l₁ ++ (g ++ (l₂ ++ rest))) =
      some ⟨l₁ ++ (g ++ l₂), g, rest⟩ := by
  unfold delimited
  rw [List.append_assoc, matchHere_lits_append]
  show Option.map _ (lazyStar a (matchHere (lits l₂)) _ _) = _
  rw [lazyStar_found a (matchHere (lits l₂)) g (l₂ ++ rest) ⟨l₂, [], rest⟩ hg
    (fun u x v q h => matchHere_lits_none l₂ q _ (hfirst u x v h))
    (fun q => matchHere_lits l₂ q rest)]
  simp

/-- The shape of every match of the pattern `l₁(a*?)l₂`. -/
theorem delimited_shape (l₁ : Str) (a : Atom) (l₂ : Str) (p : Option Char) (s : Str)
    (m : Match) (h : matchHere (delimited l₁ a l₂) p s = some m) :
    m.whole = l₁ ++ (m.group1 ++ l₂) ∧ s = m.whole ++ m.suffix ∧
      ∀ c ∈ m.group1, a.accepts c = true := by
  have hs := matchHere_sound _ p s m h
  unfold delimited at h
  rw [List.append_assoc] at h
  obtain ⟨s', rfl⟩ := matchHere_lits_starts l₁ _ p s m h
  rw [matchHere_lits_append] at h
  cases h1 : matchHere ([Node.lazyGroup a] ++ lits l₂) (lastOr p l₁) s' with
  | none => rw [h1] at h; simp at h
  | some m1 =>
    rw [h1] at h
    simp only [Option.map_some', Option.some.injEq] at h
    change lazyStar a (matchHere (lits l₂)) (lastOr p l₁) s' = some m1 at h1
    obtain ⟨g, r, q, m2, rfl, hk, hg, rfl⟩ := lazyStar_some a _ _ _ _ h1
    obtain ⟨_, hm2⟩ := matchHere_lits_some l₂ q r m2 hk
    subst h
    refine ⟨?_, hs, ?_⟩
    · rw [hm2]; simp
    · rw [hm2]; simpa using hg
theorem delimited_none (l₁ : Str) (a : Atom) (l₂ : Str) (p : Option Char) (s : Str)
    (h : ¬ l₁ <+: s) : matchHere (delimited l₁ a l₂) p s = none := by
  cases hm : matchHere (delimited l₁ a l₂) p s with
  | none => rfl
  | some m =>
    unfold delimited at hm
    rw [List.append_assoc] at hm
    exact absurd (matchHere_lits_starts l₁ _ p s m hm) h

/-- One replacement by a pattern `l₁(a*?)l₂`: the text before the first match is
copied, the match is replaced, and the replacement goes on after the match. -/
theorem delimited_replace (l₁ : Str) (a : Atom) (l₂ fmt before g rest : Str)
    (hl₁ : l₁ ≠ [])
    (hbefore : ∀ u x v, before = u ++ x :: v → ¬ l₁ <+: x :: v ++ (l₁ ++ (g ++ (l₂ ++ rest))))
    (hg : ∀ c ∈ g, a.accepts c = true)
    (hfirst : ∀ u x v, g = u ++ x :: v → ¬ l₂ <+: x :: v ++ (l₂ ++ rest)) :
    regex_replace (before ++ (l₁ ++ (g ++ (l₂ ++ rest)))) (delimited l₁ a l₂) fmt =
      before ++ formatReplacement ⟨l₁ ++ (g ++ l₂), g, rest⟩ fmt ++
        regex_replace rest (delimited l₁ a l₂) fmt := by
  rw [regex_replace_eq, regex_replace_eq,
    scanFrom_skip _ before _ none
      (fun u x v h => delimited_none l₁ a l₂ _ _ (hbefore u x v h)),
    scanFrom_hit _ _ _ _ (delimited_found l₁ a l₂ g rest _ hg hfirst)
      (by simp [hl₁]),
    renderAll_append, renderAll_copied, renderAll_cons,
    scanFrom_prev _ (delimited_no_boundary l₁ a l₂) rest _ none]
  simp [Piece.render]

theorem no_start_of_not_mem (c : Char) (w rest : Str) (hw : c ∉ w) (l : Str) :
    ∀ u x v, w = u ++ x :: v → ¬ (c :: l) <+: x :: v ++ rest := by
  intro u x v h hpre
  rw [List.cons_append, List.cons_prefix_cons] at hpre
  apply hw
  rw [h, hpre.1]
  simp

theorem no_start_of_no_occurrence (c d : Char) (hcd : d ≠ c) (w rest : Str)
    (hw : ¬ [c, d] <:+: w) :
    ∀ u x v, w = u ++ x :: v → ¬ [c, d] <+: x :: v ++ (c :: rest) := by
  intro u x v h hpre
  rw [List.cons_append, List.cons_prefix_cons] at hpre
  obtain ⟨hx, hpre⟩ := hpre
  cases v with
  | nil =>
    rw [List.nil_append, List.cons_prefix_cons] at hpre
    exact hcd hpre.1
  | cons y v' =>
    rw [List.cons_append, List.cons_prefix_cons] at hpre
    apply hw
    rw [h, ← hx, hpre.1]
    exact ⟨u, v', by simp⟩

theorem dot_accepts (c : Char) (h1 : c ≠ '\n') (h2 : c ≠ '\r') : Atom.dot.accepts c = true := by
  simp [Atom.accepts, h1, h2]

theorem spaceOrNonSpace_accepts (c : Char) : Atom.spaceOrNonSpace.accepts c = true := by
  show (isSpaceChar c || !isSpaceChar c) = true
  cases isSpaceChar c <;> rfl

theorem stringRegex_eq : stringRegex = delimited ['"'] Atom.dot ['"'] := rfl

theorem singleLineCommentRegex_eq :
    singleLineCommentRegex = delimited ['/', '/'] Atom.dot ['\n'] := rfl

theorem multiLineCommentRegex_eq :
    multiLineCommentRegex = delimited ['/', '*'] Atom.spaceOrNonSpace ['*', '/'] := rfl

theorem stringFormat_expand (m : Match) :
    formatReplacement m stringFormat =
      "<span style='color: green;'>\"".toList ++ m.group1 ++ "\"</span>".toList := rfl

theorem singleLineCommentFormat_expand (m : Match) :
    formatReplacement m singleLineCommentFormat =
      "<span style='color: gray;'>//".toList ++ m.group1 ++ "</span>\n".toList := rfl

theorem multiLineCommentFormat_expand (m : Match) :
    formatReplacement m multiLineCommentFormat =
      "<span style='color: gray;'>/*".toList ++ m.group1 ++ "*/</span>".toList := rfl

theorem stringStage_pair (a t b : Str) (ha : '"' ∉ a) (ht : '"' ∉ t)
    (hlf : '\n' ∉ t) (hcr : '\r' ∉ t) :
    stringStage (a ++ "\"".toList ++ t ++ "\"".toList ++ b) =
      a ++ "<span style='color: green;'>\"".toList ++ t ++ "\"</span>".toList ++
        stringStage b := by
  have h := delimited_replace ['"'] Atom.dot ['"'] stringFormat a t b (by simp)
    (no_start_of_not_mem '"' a _ ha [])
    (fun c hc => dot_accepts c (fun h => hlf (h ▸ hc)) (fun h => hcr (h ▸ hc)))
    (no_start_of_not_mem '"' t _ ht [])
  unfold stringStage
  rw [stringRegex_eq]
  simp only [List.append_assoc]
  rw [show "\"".toList = ['"'] from rfl, h, stringFormat_expand]
  simp only [List.append_assoc]

theorem singleLinePass_comment (p t s : Str) (hp : '/' ∉ p)
    (hlf : '\n' ∉ t) (hcr : '\r' ∉ t) :
    singleLinePass (p ++ "//".toList ++ t ++ "\n".toList ++ s) =
      p ++ "<span style='color: gray;'>//".toList ++ t ++ "</span>".toList ++ "\n".toList ++
        singleLinePass s := by
  have h := delimited_replace ['/', '/'] Atom.dot ['\n'] singleLineCommentFormat p t s
    (by simp)
    (no_start_of_not_mem '/' p _ hp ['/'])
    (fun c hc => dot_accepts c (fun h => hlf (h ▸ hc)) (fun h => hcr (h ▸ hc)))
    (no_start_of_not_mem '\n' t _ hlf [])
  unfold singleLinePass
  rw [singleLineCommentRegex_eq]
  simp only [List.append_assoc]
  rw [show "//".toList = ['/', '/'] from rfl, show "\n".toList = ['\n'] from rfl, h,
    singleLineCommentFormat_expand]
  simp only [List.append_assoc]
  rfl

theorem blockPass_comment (p t s : Str) (hp : ¬ "/*".toList <:+: p)
    (ht : ¬ "*/".toList <:+: t) :
    blockPass (p ++ "/*".toList ++ t ++ "*/".toList ++ s) =
      p ++ "<span style='color: gray;'>/*".toList ++ t ++ "*/</span>".toList ++
        blockPass s := by
  have h := delimited_replace ['/', '*'] Atom.spaceOrNonSpace ['*', '/']
    multiLineCommentFormat p t s (by simp)
    (no_start_of_no_occurrence '/' '*' (by decide) p _ hp)
    (fun c _ => spaceOrNonSpace_accepts c)
    (no_start_of_no_occurrence '*' '/' (by decide) t _ ht)
  unfold blockPass
  rw [multiLineCommentRegex_eq]
  simp only [List.append_assoc]
  rw [show "/*".toList = ['/', '*'] from rfl, show "*/".toList = ['*', '/'] from rfl, h,
    multiLineCommentFormat_expand]
  simp only [List.append_assoc]
/-! ## The keyword pattern -/

theorem atWordBoundary_eq (p : Option Char) (s : Str) :
    atWordBoundary p s = (prevIsWord p != startsWithWord s) := rfl

theorem keywordRegex_eq (k : Str) :
    keywordRegex k = Node.wordBoundary :: (lits k ++ [Node.wordBoundary]) := by
  simp [keywordRegex, lits]

theorem matchHere_boundary (q : Option Char) (s : Str) :
    matchHere [Node.wordBoundary] q s =
      if atWordBoundary q s then some ⟨[], [], s⟩ else none := by
  simp [matchHere]

theorem keyword_found (k rest : Str) (p : Option Char)
    (h1 : atWordBoundary p (k ++ rest) = true) (h2 : atWordBoundary (lastOr p k) rest = true) :
    matchHere (keywordRegex k) p (k ++ rest) = some ⟨k, [], rest⟩ := by
  rw [keywordRegex_eq, matchHere, if_pos h1, matchHere_lits_append, matchHere_boundary,
    if_pos h2]
  simp

theorem keyword_some (k s : Str) (p : Option Char) (m : Match)
    (h : matchHere (keywordRegex k) p s = some m) :
    atWordBoundary p s = true ∧ ∃ rest, s = k ++ rest ∧
      atWordBoundary (lastOr p k) rest = true ∧ m = ⟨k, [], rest⟩ := by
  rw [keywordRegex_eq, matchHere] at h
  split_ifs at h with h1
  refine ⟨h1, ?_⟩
  obtain ⟨rest, rfl⟩ := matchHere_lits_starts k _ p s m h
  rw [matchHere_lits_append, matchHere_boundary] at h
  split_ifs at h with h2
  · refine ⟨rest, rfl, h2, ?_⟩
    simp only [Option.map_some', Option.some.injEq, List.append_nil] at h
    exact h.symm
  · simp at h

theorem formatReplacement_plain (m : Match) (fmt : Str) (h : '$' ∉ fmt) :
    formatReplacement m fmt = fmt := by
  induction fmt with
  | nil => rfl
  | cons c t ih =>
    have hc : c ≠ '$' := fun hc => h (hc ▸ List.mem_cons_self _ _)
    rw [formatReplacement.eq_2, ih (fun ht => h (List.mem_cons_of_mem _ ht))]
    intro t' hc'
    exact absurd hc' hc

/-! ## Runs of word characters -/

theorem exists_run (s : Str) :
    ∃ w rest, s = w ++ rest ∧ (∀ x ∈ w, isWordChar x = true) ∧ startsWithWord rest = false := by
  induction s with
  | nil => exact ⟨[], [], rfl, by simp, rfl⟩
  | cons c t ih =>
    by_cases hc : isWordChar c = true
    · obtain ⟨w, rest, rfl, hw, hr⟩ := ih
      refine ⟨c :: w, rest, rfl, ?_, hr⟩
      intro x hx
      rcases List.mem_cons.mp hx with rfl | hx
      · exact hc
      · exact hw x hx
    · exact ⟨[], c :: t, rfl, by simp, by simpa [startsWithWord] using hc⟩

theorem lastOr_isWord (p : Option Char) (w : Str) (hw : ∀ x ∈ w, isWordChar x = true)
    (hne : w ≠ []) : prevIsWord (lastOr p w) = true := by
  induction w generalizing p with
  | nil => exact absurd rfl hne
  | cons c w ih =>
    rw [lastOr_cons]
    cases w with
    | nil => exact hw c (List.mem_cons_self _ _)
    | cons d w' =>
      exact ih (some c) (fun x hx => hw x (List.mem_cons_of_mem _ hx)) (by simp)

theorem startsWithWord_append (w rest : Str) (hw : ∀ x ∈ w, isWordChar x = true)
    (hne : w ≠ []) : startsWithWord (w ++ rest) = true := by
  cases w with
  | nil => exact absurd rfl hne
  | cons c w' => exact hw c (List.mem_cons_self _ _)
theorem keyword_none_of_no_boundary (k s : Str) (p : Option Char)
    (h : atWordBoundary p s = false) : matchHere (keywordRegex k) p s = none := by
  cases hm : matchHere (keywordRegex k) p s with
  | none => rfl
  | some m =>
    have := (keyword_some k s p m hm).1
    rw [h] at this
    exact absurd this (by simp)

theorem starts_run_of_starts (k w rest : Str) (hk : ∀ x ∈ k, isWordChar x = true)
    (hr : startsWithWord rest = false) (h : k <+: w ++ rest) : k <+: w := by
  induction k generalizing w with
  | nil => exact List.nil_prefix
  | cons c k ih =>
    cases w with
    | nil =>
      cases rest with
      | nil => simp at h
      | cons d r =>
        rw [List.nil_append, List.cons_prefix_cons] at h
        have hc := hk c (List.mem_cons_self _ _)
        rw [h.1] at hc
        simp only [startsWithWord] at hr
        rw [hr] at hc
        exact absurd hc (by simp)
    | cons d w' =>
      rw [List.cons_append, List.cons_prefix_cons] at h
      exact List.cons_prefix_cons.mpr
        ⟨h.1, ih w' (fun x hx => hk x (List.mem_cons_of_mem _ hx)) h.2⟩

/-! ## The specification of the keyword stage -/

theorem wrapKeywordRuns_nil (K : List Str) (run : Str) :
    wrapKeywordRuns K run [] = wrapIfKeyword K run := rfl

theorem wrapKeywordRuns_word (K : List Str) (run : Str) (c : Char) (t : Str)
    (hc : isWordChar c = true) :
    wrapKeywordRuns K run (c :: t) = wrapKeywordRuns K (run ++ [c]) t := by
  rw [wrapKeywordRuns, if_pos hc]

theorem wrapKeywordRuns_other (K : List Str) (run : Str) (c : Char) (t : Str)
    (hc : isWordChar c = false) :
    wrapKeywordRuns K run (c :: t) = wrapIfKeyword K run ++ c :: wrapKeywordRuns K [] t := by
  rw [wrapKeywordRuns, if_neg (by simp [hc])]

theorem wrapIfKeyword_nil (K : List Str) (hK : [] ∉ K) : wrapIfKeyword K [] = [] := by
  unfold wrapIfKeyword
  rw [if_neg hK]

theorem wrapKeywordRuns_run (K : List Str) (run w rest : Str)
    (hw : ∀ x ∈ w, isWordChar x = true) :
    wrapKeywordRuns K run (w ++ rest) = wrapKeywordRuns K (run ++ w) rest := by
  induction w generalizing run with
  | nil => simp
  | cons c w ih =>
    rw [List.cons_append, wrapKeywordRuns_word K run c _ (hw c (List.mem_cons_self _ _)),
      ih _ (fun x hx => hw x (List.mem_cons_of_mem _ hx))]
    simp

theorem wrapKeywordRuns_emit (K : List Str) (hK : [] ∉ K) (run rest : Str)
    (hr : startsWithWord rest = false) :
    wrapKeywordRuns K run rest = wrapIfKeyword K run ++ wrapKeywordRuns K [] rest := by
  cases rest with
  | nil => rw [wrapKeywordRuns_nil, wrapKeywordRuns_nil, wrapIfKeyword_nil K hK, List.append_nil]
  | cons d r =>
    have hd : isWordChar d = false := hr
    rw [wrapKeywordRuns_other K run d r hd, wrapKeywordRuns_other K [] d r hd,
      wrapIfKeyword_nil K hK, List.nil_append]

/-- A maximal run followed by the rest of the text. -/
theorem wrapKeywordRuns_split (K : List Str) (hK : [] ∉ K) (w rest : Str)
    (hw : ∀ x ∈ w, isWordChar x = true) (hr : startsWithWord rest = false) :
    wrapKeywordRuns K [] (w ++ rest) = wrapIfKeyword K w ++ wrapKeywordRuns K [] rest := by
  rw [wrapKeywordRuns_run K [] w rest hw, List.nil_append, wrapKeywordRuns_emit K hK w rest hr]

theorem wrapKeywordRuns_cons_other (K : List Str) (hK : [] ∉ K) (c : Char) (t : Str)
    (hc : isWordChar c = false) :
    wrapKeywordRuns K [] (c :: t) = c :: wrapKeywordRuns K [] t := by
  rw [wrapKeywordRuns_other K [] c t hc, wrapIfKeyword_nil K hK, List.nil_append]

/-- One pass of the keyword loop wraps the maximal runs equal to the keyword. -/
theorem keyword_pass_from (k : Str) (hk : k ≠ []) (hkw : ∀ x ∈ k, isWordChar x = true)
    (hd : '$' ∉ keywordFormat k) (s : Str) :
    ∀ p, (prevIsWord p && startsWithWord s) = false →
      renderAll (keywordFormat k) (scanFrom (keywordRegex k) p s) =
        wrapKeywordRuns [k] [] s := by
  have hK : ([] : Str) ∉ [k] := by
    simp only [List.mem_singleton]
    exact fun h => hk h.symm
  obtain ⟨n, hn⟩ : ∃ n, s.length = n := ⟨_, rfl⟩
  induction n using Nat.strong_induction_on generalizing s with
  | _ n ih =>
    intro p hp
    cases s with
    | nil => rw [scanFrom_nil, renderAll_nil, wrapKeywordRuns_nil, wrapIfKeyword_nil _ hK]
    | cons c t =>
      by_cases hc : isWordChar c = true
      · -- a run starts here
        have hpw : prevIsWord p = false := by
          simpa [startsWithWord, hc] using hp
        obtain ⟨w, rest, hs, hw, hr⟩ := exists_run (c :: t)
        have hwne : w ≠ [] := by
          rintro rfl
          rw [List.nil_append] at hs
          rw [← hs] at hr
          simp only [startsWithWord] at hr
          rw [hr] at hc
          exact absurd hc (by simp)
        have hlen : rest.length < n := by
          have : 0 < w.length := List.length_pos.mpr hwne
          rw [← hn, hs, List.length_append]; omega
        have hrest : ∀ q, renderAll (keywordFormat k) (scanFrom (keywordRegex k) q rest) =
            wrapKeywordRuns [k] [] rest :=
          fun q => ih _ hlen rest rfl q (by rw [hr]; simp)
        rw [hs, wrapKeywordRuns_split _ hK w rest hw hr]
        by_cases hwk : w = k
        · subst hwk
          have hfound := keyword_found w rest p
            (by rw [atWordBoundary_eq, hpw, startsWithWord_append w rest hw hwne]; rfl)
            (by rw [atWordBoundary_eq, lastOr_isWord p w hw hwne, hr]; rfl)
          rw [scanFrom_hit _ _ _ _ hfound hwne, renderAll_cons, hrest]
          simp only [Piece.render, formatReplacement_plain _ _ hd, wrapIfKeyword,
            List.mem_singleton, if_true]
        · have hskip : ∀ u x v, w = u ++ x :: v →
              matchHere (keywordRegex k) (lastOr p u) (x :: v ++ rest) = none := by
            intro u x v huv
            cases hm : matchHere (keywordRegex k) (lastOr p u) (x :: v ++ rest) with
            | none => rfl
            | some m =>
              exfalso
              obtain ⟨hb, rest', hs', hb', _⟩ := keyword_some k _ _ m hm
              cases u with
              | nil =>
                rw [List.nil_append] at huv
                have hkpre : k <+: w ++ rest := by
                  rw [huv, hs']; exact List.prefix_append _ _
                obtain ⟨w'', hw''⟩ := starts_run_of_starts k w rest hkw hr hkpre
                have hw''ne : w'' ≠ [] := by
                  rintro rfl
                  rw [List.append_nil] at hw''
                  exact hwk hw''.symm
                have hrest' : rest' = w'' ++ rest := by
                  have : k ++ rest' = k ++ (w'' ++ rest) := by
                    rw [← hs', ← huv, ← hw'', List.append_assoc]
                  exact List.append_cancel_left this
                have hw''w : ∀ x ∈ w'', isWordChar x = true := by
                  intro y hy
                  apply hw
                  rw [← hw'']
                  exact List.mem_append_right _ hy
                rw [atWordBoundary_eq, lastOr_isWord _ k hkw hk, hrest',
                  startsWithWord_append w'' rest hw''w hw''ne] at hb'
                exact absurd hb' (by simp)
              | cons y u' =>
                have hu : ∀ z ∈ y :: u', isWordChar z = true := by
                  intro z hz
                  apply hw
                  rw [huv]
                  exact List.mem_append_left _ hz
                have hx : isWordChar x = true := by
                  apply hw
                  rw [huv]
                  simp
                rw [atWordBoundary_eq, lastOr_isWord p _ hu (by simp)] at hb
                simp only [startsWithWord, List.cons_append, hx] at hb
                exact absurd hb (by simp)
          rw [scanFrom_skip _ w rest p hskip, renderAll_append, renderAll_copied, hrest]
          simp only [wrapIfKeyword, List.mem_singleton, hwk, if_false]
      · -- a character that is not a word character is copied
        have hc' : isWordChar c = false := by simpa using hc
        have hnone : matchHere (keywordRegex k) p (c :: t) = none := by
          cases hm : matchHere (keywordRegex k) p (c :: t) with
          | none => rfl
          | some m =>
            exfalso
            obtain ⟨_, rest', hs', _, _⟩ := keyword_some k _ _ m hm
            cases k with
            | nil => exact hk rfl
            | cons k0 k' =>
              rw [List.cons_append] at hs'
              have h0 := hkw k0 (List.mem_cons_self _ _)
              rw [← (List.cons.inj hs').1, hc'] at h0
              exact absurd h0 (by simp)
        have hlen : t.length < n := by rw [← hn]; simp
        rw [scanFrom_miss _ p c t hnone, renderAll_cons,
          ih _ hlen t rfl (some c) (by simp [prevIsWord, hc']),
          wrapKeywordRuns_cons_other _ hK c t hc']
        rfl

theorem keyword_pass (k : Str) (hk : k ≠ []) (hkw : ∀ x ∈ k, isWordChar x = true)
    (hd : '$' ∉ keywordFormat k) (s : Str) :
    regex_replace s (keywordRegex k) (keywordFormat k) = wrapKeywordRuns [k] [] s := by
  rw [regex_replace_eq]
  exact keyword_pass_from k hk hkw hd s none rfl
theorem wrapKeywordRuns_sep (K : List Str) (run a : Str) (c : Char) (b : Str)
    (hc : isWordChar c = false) :
    wrapKeywordRuns K run (a ++ c :: b) =
      wrapKeywordRuns K run a ++ c :: wrapKeywordRuns K [] b := by
  induction a generalizing run with
  | nil => rw [List.nil_append, wrapKeywordRuns_other K run c b hc, wrapKeywordRuns_nil]
  | cons x a ih =>
    by_cases hx : isWordChar x = true
    · rw [List.cons_append, wrapKeywordRuns_word K run x _ hx, wrapKeywordRuns_word K run x _ hx,
        ih]
    · have hx' : isWordChar x = false := by simpa using hx
      rw [List.cons_append, wrapKeywordRuns_other K run x _ hx',
        wrapKeywordRuns_other K run x _ hx', ih]
      simp

/-- A text that the specification leaves alone and that ends in a character that
is not a word character is passed through in front of any text. -/
theorem wrapKeywordRuns_through (K : List Str) (hK : [] ∉ K) (T' : Str) (c : Char) (b : Str)
    (hc : isWordChar c = false)
    (hfix : wrapKeywordRuns K [] (T' ++ [c]) = T' ++ [c]) :
    wrapKeywordRuns K [] ((T' ++ [c]) ++ b) = (T' ++ [c]) ++ wrapKeywordRuns K [] b := by
  have h1 : wrapKeywordRuns K [] T' = T' := by
    rw [wrapKeywordRuns_sep K [] T' c [] hc, wrapKeywordRuns_nil, wrapIfKeyword_nil K hK] at hfix
    exact List.append_cancel_right hfix
  rw [List.append_assoc, List.singleton_append, wrapKeywordRuns_sep K [] T' c b hc, h1]
  simp

theorem startsWithWord_wrap (K : List Str) (hK : [] ∉ K) (rest : Str)
    (hr : startsWithWord rest = false) :
    startsWithWord (wrapKeywordRuns K [] rest) = false := by
  cases rest with
  | nil => rw [wrapKeywordRuns_nil, wrapIfKeyword_nil K hK]; rfl
  | cons d r =>
    have hd : isWordChar d = false := hr
    rw [wrapKeywordRuns_cons_other K hK d r hd]
    exact hd

theorem wrapKeywordRuns_no_keywords (s : Str) : ∀ run, wrapKeywordRuns [] run s = run ++ s := by
  induction s with
  | nil => intro run; simp [wrapKeywordRuns_nil, wrapIfKeyword]
  | cons c t ih =>
    intro run
    by_cases hc : isWordChar c = true
    · rw [wrapKeywordRuns_word [] run c t hc, ih]; simp
    · have hc' : isWordChar c = false := by simpa using hc
      rw [wrapKeywordRuns_other [] run c t hc', ih]; simp [wrapIfKeyword]

/-- What the keyword loop needs of a keyword: it is a non-empty run of word
characters without `$`, and it is not a run of the markup of the span. -/
theorem keywords_good : ∀ k ∈ keywords,
    k ≠ [] ∧ (∀ x ∈ k, isWordChar x = true) ∧ '$' ∉ keywordFormat k ∧
    wrapKeywordRuns [k] [] "<span style='color: blue; font-weight: bold;'>".toList =
      "<span style='color: blue; font-weight: bold;'>".toList ∧
    wrapKeywordRuns [k] [] "</span>".toList = "</span>".toList := by
  decide

/-- Wrapping the runs equal to `k` in a text whose runs in `ks` are wrapped already
gives the text whose runs in `ks` or equal to `k` are wrapped. -/
theorem wrapKeywordRuns_compose (ks : List Str) (k : Str) (hks : [] ∉ ks) (hk : k ≠ [])
    (hnot : k ∉ ks)
    (hopen : wrapKeywordRuns [k] [] "<span style='color: blue; font-weight: bold;'>".toList =
      "<span style='color: blue; font-weight: bold;'>".toList)
    (hclose : wrapKeywordRuns [k] [] "</span>".toList = "</span>".toList) (s : Str) :
    wrapKeywordRuns [k] [] (wrapKeywordRuns ks [] s) = wrapKeywordRuns (ks ++ [k]) [] s := by
  have hK : ([] : Str) ∉ [k] := by
    simp only [List.mem_singleton]
    exact fun h => hk h.symm
  have hKK : ([] : Str) ∉ ks ++ [k] := by
    simp only [List.mem_append, List.mem_singleton, not_or]
    exact ⟨hks, fun h => hk h.symm⟩
  obtain ⟨n, hn⟩ : ∃ n, s.length = n := ⟨_, rfl⟩
  induction n using Nat.strong_induction_on generalizing s with
  | _ n ih =>
    cases s with
    | nil =>
      rw [wrapKeywordRuns_nil, wrapIfKeyword_nil _ hks, wrapKeywordRuns_nil,
        wrapIfKeyword_nil _ hK, wrapKeywordRuns_nil, wrapIfKeyword_nil _ hKK]
    | cons c t =>
      by_cases hc : isWordChar c = true
      · obtain ⟨w, rest, hs, hw, hr⟩ := exists_run (c :: t)
        have hwne : w ≠ [] := by
          rintro rfl
          rw [List.nil_append] at hs
          rw [← hs] at hr
          simp only [startsWithWord] at hr
          rw [hr] at hc
          exact absurd hc (by simp)
        have hlen : rest.length < n := by
          have : 0 < w.length := List.length_pos.mpr hwne
          rw [← hn, hs, List.length_append]; omega
        have hR := startsWithWord_wrap ks hks rest hr
        rw [hs, wrapKeywordRuns_split ks hks w rest hw hr,
          wrapKeywordRuns_split _ hKK w rest hw hr, ← ih _ hlen rest rfl]
        by_cases hwks : w ∈ ks
        · have hwk : w ≠ k := fun h => hnot (h ▸ hwks)
          have e1 : wrapIfKeyword ks w =
              ("<span style='color: blue; font-weight: bold;'".toList ++ ['>']) ++
                (w ++ (("</span".toList ++ ['>']) ++ [])) := by
            simp only [wrapIfKeyword, hwks, if_true, keywordFormat]
            simp
          have e2 : wrapIfKeyword (ks ++ [k]) w =
              ("<span style='color: blue; font-weight: bold;'".toList ++ ['>']) ++
                (w ++ (("</span".toList ++ ['>']) ++ [])) := by
            simp only [wrapIfKeyword, List.mem_append, hwks, true_or, if_true, keywordFormat]
            simp
          rw [e1, e2]
          simp only [List.append_assoc _ _ (wrapKeywordRuns ks [] rest)]
          rw [wrapKeywordRuns_through [k] hK _ '>' _ (by decide) hopen,
            wrapKeywordRuns_split [k] hK w _ hw (by rfl),
            List.nil_append,
            wrapKeywordRuns_through [k] hK _ '>' _ (by decide) hclose]
          simp only [wrapIfKeyword, List.mem_singleton, hwk, if_false, List.append_assoc,
            List.append_nil]
        · have e1 : wrapIfKeyword ks w = w := by
            simp only [wrapIfKeyword, hwks, if_false]
          have e2 : wrapIfKeyword (ks ++ [k]) w = wrapIfKeyword [k] w := by
            simp only [wrapIfKeyword, List.mem_append, hwks, false_or]
          rw [e1, e2, wrapKeywordRuns_split [k] hK w _ hw hR]
      · have hc' : isWordChar c = false := by simpa using hc
        have hlen : t.length < n := by rw [← hn]; simp
        rw [wrapKeywordRuns_cons_other ks hks c t hc', wrapKeywordRuns_cons_other _ hK c _ hc',
          wrapKeywordRuns_cons_other _ hKK c t hc', ih _ hlen t rfl]

/-- The keyword loop over the keywords `todo`, started on a text in which the
runs in `done` are wrapped. -/
theorem keyword_loop (todo : List Str) :
    ∀ (done : List Str) (h : Str), [] ∉ done → (done ++ todo).Nodup →
      (∀ k ∈ todo, k ∈ keywords) →
      todo.foldl (fun html keyword =>
          regex_replace html (keywordRegex keyword) (keywordFormat keyword))
        (wrapKeywordRuns done [] h) = wrapKeywordRuns (done ++ todo) [] h := by
  induction todo with
  | nil => intro done h _ _ _; simp
  | cons k todo ih =>
    intro done h hdone hnd hkw
    obtain ⟨hk, hkword, hd, hopen, hclose⟩ := keywords_good k (hkw k (List.mem_cons_self _ _))
    have hnot : k ∉ done := by
      intro hmem
      have := List.nodup_append.mp hnd
      exact this.2.2 hmem (List.mem_cons_self _ _)
    rw [List.foldl_cons, keyword_pass k hk hkword hd,
      wrapKeywordRuns_compose done k hdone hk hnot hopen hclose h]
    have := ih (done ++ [k]) h
      (by
        simp only [List.mem_append, List.mem_singleton, not_or]
        exact ⟨hdone, fun h => hk h.symm⟩)
      (by simpa using hnd)
      (fun k' hk' => hkw k' (List.mem_cons_of_mem _ hk'))
    simpa using this

theorem keywordStage_eq (h : Str) : keywordStage h = wrapKeywordRuns keywords [] h := by
  have := keyword_loop keywords [] h (by simp) (by decide) (fun k hk => hk)
  rw [wrapKeywordRuns_no_keywords] at this
  exact this
/-! ## Tiled texts -/

theorem Tiled.append {U : List Str} {a b : Str} (ha : Tiled U a) (hb : Tiled U b) :
    Tiled U (a ++ b) := by
  induction ha with
  | nil => exact hb
  | char c t hc _ ih => exact Tiled.char c _ hc ih
  | block blk t hblk _ ih => rw [List.append_assoc]; exact Tiled.block blk _ hblk ih

theorem Tiled.of_plain {U : List Str} (w : Str) (hw : ∀ c ∈ w, isPlainChar c = true) :
    Tiled U w := by
  induction w with
  | nil => exact Tiled.nil
  | cons c w ih =>
    exact Tiled.char c w (hw c (List.mem_cons_self _ _))
      (ih (fun x hx => hw x (List.mem_cons_of_mem _ hx)))

theorem Tiled.of_block {U : List Str} (b : Str) (hb : b ∈ U) : Tiled U b := by
  have := Tiled.block b [] hb Tiled.nil
  rwa [List.append_nil] at this

theorem Tiled.mono {U V : List Str} (hUV : ∀ b ∈ U, Tiled V b) {s : Str} (h : Tiled U s) :
    Tiled V s := by
  induction h with
  | nil => exact Tiled.nil
  | char c t hc _ ih => exact Tiled.char c t hc ih
  | block blk t hblk _ ih => exact (hUV blk hblk).append ih

/-- A tiled text splits at a character that occurs in no block. -/
theorem Tiled.split {U : List Str} (c : Char) (hc : ∀ b ∈ U, c ∉ b) :
    ∀ (a b : Str), Tiled U (a ++ c :: b) → Tiled U a ∧ Tiled U b := by
  intro a b h
  generalize hs : a ++ c :: b = s at h
  induction h generalizing a with
  | nil => simp at hs
  | char x t hx ht ih =>
    cases a with
    | nil =>
      rw [List.nil_append] at hs
      exact ⟨Tiled.nil, (List.cons.inj hs).2 ▸ ht⟩
    | cons y a' =>
      rw [List.cons_append] at hs
      obtain ⟨hyx, hrest⟩ := List.cons.inj hs
      obtain ⟨h1, h2⟩ := ih a' hrest
      exact ⟨hyx ▸ Tiled.char x a' hx h1, h2⟩
  | block blk t hblk ht ih =>
    rcases List.append_eq_append_iff.mp hs with ⟨a', h1, h2⟩ | ⟨c', h1, h2⟩
    · -- `blk = a ++ a'` and `c :: b = a' ++ t`
      cases a' with
      | nil =>
        rw [List.nil_append] at h2
        rw [List.append_nil] at h1
        obtain ⟨_, hb⟩ := ih [] (by rw [List.nil_append]; exact h2)
        exact ⟨h1 ▸ Tiled.of_block a (h1 ▸ hblk), hb⟩
      | cons x a'' =>
        rw [List.cons_append] at h2
        have hcx : c = x := (List.cons.inj h2).1
        exfalso
        apply hc blk hblk
        rw [h1, hcx]
        simp
    · -- `a = blk ++ c'` and `t = c' ++ c :: b`
      obtain ⟨h3, h4⟩ := ih c' h2.symm
      exact ⟨h1 ▸ (Tiled.of_block blk hblk).append h3, h4⟩

/-- A tiled text that starts with a character with which no block starts has a
tiled tail. -/
theorem Tiled.tail {U : List Str} (hne : ∀ b ∈ U, b ≠ []) (c : Char)
    (hc : ∀ b ∈ U, b.head? ≠ some c) (t : Str) (h : Tiled U (c :: t)) : Tiled U t := by
  generalize hs : c :: t = s at h
  cases h with
  | nil => simp at hs
  | char x t' hx ht => exact (List.cons.inj hs).2 ▸ ht
  | block blk t' hblk ht =>
    exfalso
    cases blk with
    | nil => exact hne [] hblk rfl
    | cons y blk' =>
      rw [List.cons_append] at hs
      apply hc _ hblk
      rw [(List.cons.inj hs).1]
      rfl

theorem Tiled.drop_lits {U : List Str} (hne : ∀ b ∈ U, b ≠ []) (l : Str)
    (hl : ∀ c ∈ l, ∀ b ∈ U, b.head? ≠ some c) (t : Str) (h : Tiled U (l ++ t)) :
    Tiled U t := by
  induction l with
  | nil => exact h
  | cons c l ih =>
    exact ih (fun x hx => hl x (List.mem_cons_of_mem _ hx))
      (Tiled.tail hne c (hl c (List.mem_cons_self _ _)) _ h)
/-! ## Scanning a tiled text -/

theorem no_start_in_block (l₁ v rest : Str) (h1 : ¬ l₁ <+: v) (h2 : ¬ v <+: l₁) :
    ¬ l₁ <+: v ++ rest := by
  intro h
  rcases List.prefix_or_prefix_of_prefix h (List.prefix_append v rest) with h' | h'
  · exact h1 h'
  · exact h2 h'

/-- The scan by a pattern `l₁(a*?)l₂` of a tiled text respects the tiling, when no
match can start inside a block, no block starts with a character of the two
delimiters, and the first character of `l₂` occurs in no block. -/
theorem scan_tiled (U : List Str) (l₁ : Str) (a : Atom) (d : Char) (l₂' : Str)
    (hne : ∀ b ∈ U, b ≠ [])
    (hstart : ∀ b ∈ U, ∀ v ∈ b.tails, v ≠ [] → ¬ l₁ <+: v ∧ ¬ v <+: l₁)
    (hl₁ : ∀ c ∈ l₁, ∀ b ∈ U, b.head? ≠ some c)
    (hd : ∀ b ∈ U, d ∉ b)
    (hl₂' : ∀ c ∈ l₂', ∀ b ∈ U, b.head? ≠ some c) (s : Str) :
    ∀ p, Tiled U s → TiledScan U (scanFrom (delimited l₁ a (d :: l₂')) p s) := by
  obtain ⟨n, hn⟩ : ∃ n, s.length = n := ⟨_, rfl⟩
  induction n using Nat.strong_induction_on generalizing s with
  | _ n ih =>
    intro p h
    cases h with
    | nil => rw [scanFrom_nil]; exact TiledScan.nil
    | char c t hc ht =>
      cases hm : nonEmptyMatch (delimited l₁ a (d :: l₂')) p (c :: t) with
      | none =>
        rw [scanFrom_pass _ p c t hm]
        exact TiledScan.char c _ hc (ih _ (by rw [← hn]; simp) t rfl _ ht)
      | some m =>
        obtain ⟨hmatch, hw, hs⟩ := nonEmptyMatch_some hm
        obtain ⟨hshape, _, _⟩ := delimited_shape l₁ a (d :: l₂') p _ m hmatch
        have htiled : Tiled U (l₁ ++ (m.group1 ++ d :: (l₂' ++ m.suffix))) := by
          have := Tiled.char c t hc ht
          rw [hs, hshape] at this
          simpa using this
        obtain ⟨hg, hrest⟩ := Tiled.split d hd _ _ (Tiled.drop_lits hne l₁ hl₁ _ htiled)
        have hsuffix := Tiled.drop_lits hne l₂' hl₂' _ hrest
        have hlen : m.suffix.length < n := by
          have : 0 < m.whole.length := List.length_pos.mpr hw
          rw [← hn, hs, List.length_append]; omega
        rw [scanFrom_found _ p _ m hm]
        exact TiledScan.hit m _ hg (ih _ hlen m.suffix rfl _ hsuffix)
    | block b t hb ht =>
      have hskip : ∀ u x v, b = u ++ x :: v →
          matchHere (delimited l₁ a (d :: l₂')) (lastOr p u) (x :: v ++ t) = none := by
        intro u x v huv
        have hmem : x :: v ∈ b.tails := by
          rw [List.mem_tails, huv]
          exact List.suffix_append u (x :: v)
        obtain ⟨h1, h2⟩ := hstart b hb (x :: v) hmem (by simp)
        exact delimited_none l₁ a _ _ _ (no_start_in_block l₁ (x :: v) t h1 h2)
      have hlen : t.length < n := by
        have : 0 < b.length := List.length_pos.mpr (hne b hb)
        rw [← hn, List.length_append]; omega
      rw [scanFrom_skip _ b t p hskip]
      exact TiledScan.block b _ hb (ih _ hlen t rfl _ ht)

/-- The output written for a scan that respects a tiling is tiled. -/
theorem TiledScan.render {U V : List Str} (fmt : Str) (hUV : ∀ b ∈ U, Tiled V b)
    (hfmt : ∀ m : Match, Tiled U m.group1 → Tiled V (formatReplacement m fmt))
    {ps : List Piece} (h : TiledScan U ps) : Tiled V (renderAll fmt ps) := by
  induction h with
  | nil => exact Tiled.nil
  | char c ps hc _ ih => rw [renderAll_cons]; exact Tiled.char c _ hc ih
  | block b ps hb _ ih =>
    rw [renderAll_append, renderAll_copied]
    exact (hUV b hb).append ih
  | hit m ps hg _ ih =>
    rw [renderAll_cons]
    exact (hfmt m hg).append ih

/-- Capture group 1 of every match of a scan that respects a tiling is tiled. -/
theorem TiledScan.group_tiled {U : List Str} {ps : List Piece} (h : TiledScan U ps) :
    ∀ m, Piece.matched m ∈ ps → Tiled U m.group1 := by
  induction h with
  | nil => intro m hm; simp at hm
  | char c ps _ _ ih =>
    intro m hm
    rcases List.mem_cons.mp hm with h' | h'
    · cases h'
    · exact ih m h'
  | block b ps _ _ ih =>
    intro m hm
    rcases List.mem_append.mp hm with h' | h'
    · simp at h'
    · exact ih m h'
  | hit m' ps hg _ ih =>
    intro m hm
    rcases List.mem_cons.mp hm with h' | h'
    · cases h'; exact hg
    · exact ih m h'
/-! ## The stages keep the output tiled -/

theorem isPlainChar_of_isWordChar (c : Char) (h : isWordChar c = true) :
    isPlainChar c = true := by
  by_cases h1 : c = '<'
  · subst h1; exact absurd h (by decide)
  · by_cases h2 : c = '>'
    · subst h2; exact absurd h (by decide)
    · simp [isPlainChar, h1, h2]

theorem isPlainChar_iff (c : Char) : isPlainChar c = true ↔ c ≠ '<' ∧ c ≠ '>' := by
  simp [isPlainChar]

theorem convert_tiled (s : Str) : Tiled wrapperTags (BasicCodeToHTML.convert s) := by
  rw [convert_eq]
  have hbody : Tiled wrapperTags (s.map charImage).flatten :=
    Tiled.of_plain _ (fun c hc => (isPlainChar_iff c).mpr (image_no_angle s c hc))
  have h1 : Tiled wrapperTags "<pre><code>".toList :=
    (Tiled.of_block "<pre>".toList (by decide)).append (Tiled.of_block "<code>".toList (by decide))
  have h2 : Tiled wrapperTags "</code></pre>".toList :=
    (Tiled.of_block "</code>".toList (by decide)).append
      (Tiled.of_block "</pre>".toList (by decide))
  exact (h1.append hbody).append h2

theorem keywordFormat_mem_units (k : Str) (hk : k ∈ keywords) :
    keywordFormat k ∈ keywordUnits := by
  unfold keywordUnits
  exact List.mem_append_right _ (List.mem_map_of_mem _ hk)

theorem wrapIfKeyword_tiled (run : Str) (hrun : ∀ x ∈ run, isWordChar x = true) :
    Tiled keywordUnits (wrapIfKeyword keywords run) := by
  unfold wrapIfKeyword
  split_ifs with h
  · exact Tiled.of_block _ (keywordFormat_mem_units run h)
  · exact Tiled.of_plain _ (fun x hx => isPlainChar_of_isWordChar x (hrun x hx))

theorem wrapperTags_through : ∀ b ∈ wrapperTags,
    b = b.dropLast ++ ['>'] ∧ wrapKeywordRuns keywords [] b = b ∧ b.head? = some '<' := by
  decide

theorem wrapKeywordRuns_tiled (h : Str) (ht : Tiled wrapperTags h) :
    ∀ run, (∀ x ∈ run, isWordChar x = true) →
      Tiled keywordUnits (wrapKeywordRuns keywords run h) := by
  have hK : ([] : Str) ∉ keywords := by decide
  have hsub : ∀ b ∈ wrapperTags, b ∈ keywordUnits := fun b hb => List.mem_append_left _ hb
  induction ht with
  | nil => intro run hrun; exact wrapIfKeyword_tiled run hrun
  | char c t hc _ ih =>
    intro run hrun
    by_cases hw : isWordChar c = true
    · rw [wrapKeywordRuns_word _ run c t hw]
      apply ih
      intro x hx
      rcases List.mem_append.mp hx with hx | hx
      · exact hrun x hx
      · rw [List.mem_singleton.mp hx]; exact hw
    · have hw' : isWordChar c = false := by simpa using hw
      rw [wrapKeywordRuns_other _ run c t hw']
      exact (wrapIfKeyword_tiled run hrun).append (Tiled.char c _ hc (ih [] (by simp)))
  | block b t hb _ ih =>
    intro run hrun
    obtain ⟨hlast, hfix, hhead⟩ := wrapperTags_through b hb
    have hstart : startsWithWord (b ++ t) = false := by
      cases b with
      | nil => simp at hhead
      | cons x b' =>
        simp only [List.head?_cons, Option.some.injEq] at hhead
        subst hhead
        rfl
    rw [wrapKeywordRuns_emit _ hK run _ hstart]
    have hthrough : wrapKeywordRuns keywords [] (b ++ t) = b ++ wrapKeywordRuns keywords [] t := by
      have := wrapKeywordRuns_through keywords hK b.dropLast '>' t (by decide)
        (by rw [← hlast]; exact hfix)
      rwa [← hlast] at this
    rw [hthrough]
    exact (wrapIfKeyword_tiled run hrun).append (Tiled.block b _ (hsub b hb) (ih [] (by simp)))

theorem keywordStage_tiled (h : Str) (ht : Tiled wrapperTags h) :
    Tiled keywordUnits (keywordStage h) := by
  rw [keywordStage_eq]
  exact wrapKeywordRuns_tiled h ht [] (by simp)

theorem keywordUnits_tiled : ∀ b ∈ keywordUnits, Tiled tags b := by
  intro b hb
  rcases List.mem_append.mp hb with hb | hb
  · exact Tiled.of_block b ((by decide : ∀ b ∈ wrapperTags, b ∈ tags) b hb)
  · obtain ⟨k, hk, rfl⟩ := List.mem_map.mp hb
    obtain ⟨_, hkw, _⟩ := keywords_good k hk
    unfold keywordFormat
    exact ((Tiled.of_block _ (by decide)).append
      (Tiled.of_plain k (fun x hx => isPlainChar_of_isWordChar x (hkw x hx)))).append
      (Tiled.of_block _ (by decide))

theorem stringStage_tiled (h : Str) (ht : Tiled tags h) : Tiled tags (stringStage h) := by
  unfold stringStage
  rw [regex_replace_eq, stringRegex_eq]
  refine TiledScan.render stringFormat (fun b hb => Tiled.of_block b hb) ?_
    (scan_tiled tags ['"'] Atom.dot '"' [] (by decide) (by decide) (by decide) (by decide)
      (by decide) h none ht)
  intro m hm
  rw [stringFormat_expand]
  exact ((Tiled.append (Tiled.of_block "<span style='color: green;'>".toList (by decide))
    (Tiled.of_plain ['"'] (by decide))).append hm).append
    (Tiled.append (Tiled.of_plain ['"'] (by decide))
      (Tiled.of_block "</span>".toList (by decide)))

theorem singleLinePass_tiled (h : Str) (ht : Tiled tags h) : Tiled tags (singleLinePass h) := by
  unfold singleLinePass
  rw [regex_replace_eq, singleLineCommentRegex_eq]
  refine TiledScan.render singleLineCommentFormat (fun b hb => Tiled.of_block b hb) ?_
    (scan_tiled tags ['/', '/'] Atom.dot '\n' [] (by decide) (by decide) (by decide)
      (by decide) (by decide) h none ht)
  intro m hm
  rw [singleLineCommentFormat_expand]
  exact ((Tiled.append (Tiled.of_block "<span style='color: gray;'>".toList (by decide))
    (Tiled.of_plain ['/', '/'] (by decide))).append hm).append
    (Tiled.append (Tiled.of_block "</span>".toList (by decide))
      (Tiled.of_plain ['\n'] (by decide)))

theorem blockPass_tiled (h : Str) (ht : Tiled tags h) : Tiled tags (blockPass h) := by
  unfold blockPass
  rw [regex_replace_eq, multiLineCommentRegex_eq]
  refine TiledScan.render multiLineCommentFormat (fun b hb => Tiled.of_block b hb) ?_
    (scan_tiled tags ['/', '*'] Atom.spaceOrNonSpace '*' ['/'] (by decide) (by decide)
      (by decide) (by decide) (by decide) h none ht)
  intro m hm
  rw [multiLineCommentFormat_expand]
  exact ((Tiled.append (Tiled.of_block "<span style='color: gray;'>".toList (by decide))
    (Tiled.of_plain ['/', '*'] (by decide))).append hm).append
    (Tiled.append (Tiled.of_plain ['*', '/'] (by decide))
      (Tiled.of_block "</span>".toList (by decide)))

theorem pipeline_tiled (s : Str) : Tiled tags (pipeline s) := by
  unfold pipeline CommentHighlighter.convert StringLiteralHighlighter.convert
    KeywordHighlighter.convert commentStage
  exact blockPass_tiled _ (singleLinePass_tiled _ (stringStage_tiled _
    (Tiled.mono keywordUnits_tiled (keywordStage_tiled _ (convert_tiled s)))))

theorem Tiled.pieces {s : Str} (h : Tiled tags s) :
    ∃ pieces : List Str, pieces.flatten = s ∧ ∀ p ∈ pieces, IsPiece p := by
  induction h with
  | nil => exact ⟨[], rfl, by simp⟩
  | char c t hc _ ih =>
    obtain ⟨ps, hps, hall⟩ := ih
    refine ⟨[c] :: ps, by simp [hps], ?_⟩
    intro p hp
    rcases List.mem_cons.mp hp with rfl | hp
    · exact Or.inr ⟨c, rfl, (isPlainChar_iff c).mp hc⟩
    · exact hall p hp
  | block b t hb _ ih =>
    obtain ⟨ps, hps, hall⟩ := ih
    refine ⟨b :: ps, by simp [hps], ?_⟩
    intro p hp
    rcases List.mem_cons.mp hp with rfl | hp
    · exact Or.inl hb
    · exact hall p hp
/-! ## Nesting of span tags -/

theorem spansNested_other (d : Nat) (c : Char) (X : Str) (hc : c ≠ '<') :
    spansNested d (c :: X) = spansNested d X := by
  rw [spansNested, if_neg, if_neg]
  · show ¬ (List.isPrefixOf ('<' :: "/span>".toList) (c :: X) = true)
    simp [List.isPrefixOf, hc.symm]
  · show ¬ (List.isPrefixOf ('<' :: "span ".toList) (c :: X) = true)
    simp [List.isPrefixOf, hc.symm]

theorem spansNested_skip (d : Nat) (w X : Str) (hw : ∀ c ∈ w, c ≠ '<') :
    spansNested d (w ++ X) = spansNested d X := by
  induction w with
  | nil => rfl
  | cons c w ih =>
    rw [List.cons_append, spansNested_other d c _ (hw c (List.mem_cons_self _ _)),
      ih (fun x hx => hw x (List.mem_cons_of_mem _ hx))]

theorem spansNested_open (d : Nat) (X : Str) :
    spansNested d ("<span ".toList ++ X) = spansNested (d + 1) X := by
  show spansNested d ('<' :: ("span ".toList ++ X)) = _
  rw [spansNested, if_pos]
  · exact spansNested_skip (d + 1) "span ".toList X (by decide)
  · show List.isPrefixOf "<span ".toList ("<span ".toList ++ X) = true
    simp

theorem spansNested_close (d : Nat) (X : Str) :
    spansNested (d + 1) ("</span>".toList ++ X) = spansNested d X := by
  show spansNested (d + 1) ('<' :: ("/span>".toList ++ X)) = _
  rw [spansNested, if_neg, if_pos]
  · show (true && spansNested d ("/span>".toList ++ X)) = _
    rw [Bool.true_and]
    exact spansNested_skip d "/span>".toList X (by decide)
  · show List.isPrefixOf "</span>".toList ("</span>".toList ++ X) = true
    simp
  · rw [show List.isPrefixOf "<span ".toList ('<' :: ("/span>".toList ++ X)) = false from rfl]
    simp

theorem spansNested_keywordFormat (k : Str) (hk : ∀ c ∈ k, isWordChar c = true) (d : Nat)
    (X : Str) : spansNested d (keywordFormat k ++ X) = spansNested d X := by
  have hk' : ∀ c ∈ k, c ≠ '<' := by
    intro c hc h
    subst h
    exact absurd (hk _ hc) (by decide)
  have e : keywordFormat k ++ X =
      "<span ".toList ++ ("style='color: blue; font-weight: bold;'>".toList ++
        (k ++ ("</span>".toList ++ X))) := by
    simp [keywordFormat]
  rw [e, spansNested_open, spansNested_skip _ _ _ (by decide), spansNested_skip _ _ _ hk',
    spansNested_close]

theorem spansNested_units : ∀ b ∈ keywordUnits, ∀ (d : Nat) (X : Str),
    spansNested d (b ++ X) = spansNested d X := by
  intro b hb d X
  rcases List.mem_append.mp hb with hb | hb
  · simp only [wrapperTags, List.mem_cons, List.mem_singleton, List.not_mem_nil, or_false] at hb
    rcases hb with rfl | rfl | rfl | rfl <;> rfl
  · obtain ⟨k, hk, rfl⟩ := List.mem_map.mp hb
    exact spansNested_keywordFormat k (keywords_good k hk).2.1 d X

theorem spansNested_tiled {g : Str} (h : Tiled keywordUnits g) :
    ∀ (d : Nat) (X : Str), spansNested d (g ++ X) = spansNested d X := by
  induction h with
  | nil => intro d X; rfl
  | char c t hc _ ih =>
    intro d X
    rw [List.cons_append, spansNested_other d c _ ((isPlainChar_iff c).mp hc).1, ih]
  | block b t hb _ ih =>
    intro d X
    rw [List.append_assoc, spansNested_units b hb, ih]
/-! ## Characters that the stages do not introduce -/

theorem delimited_replace_id (l₁ : Str) (a : Atom) (l₂ fmt h : Str)
    (hno : ∀ u x v, h = u ++ x :: v → ¬ l₁ <+: x :: v) :
    regex_replace h (delimited l₁ a l₂) fmt = h := by
  have hskip : ∀ u x v, h = u ++ x :: v →
      matchHere (delimited l₁ a l₂) (lastOr none u) (x :: v ++ []) = none := by
    intro u x v huv
    rw [List.append_nil]
    exact delimited_none l₁ a l₂ _ _ (hno u x v huv)
  have := scanFrom_skip (delimited l₁ a l₂) h [] none hskip
  rw [List.append_nil] at this
  rw [regex_replace_eq, this, scanFrom_nil, List.append_nil, renderAll_copied]

theorem stringStage_id (h : Str) (hq : '"' ∉ h) : stringStage h = h := by
  unfold stringStage
  rw [stringRegex_eq]
  apply delimited_replace_id
  intro u x v huv hpre
  rw [List.cons_prefix_cons] at hpre
  apply hq
  rw [huv, hpre.1]
  simp

theorem singleLinePass_id (h : Str) (hno : ¬ ['/', '/'] <:+: h) : singleLinePass h = h := by
  unfold singleLinePass
  rw [singleLineCommentRegex_eq]
  apply delimited_replace_id
  intro u x v huv hpre
  apply hno
  obtain ⟨r, hr⟩ := hpre
  exact ⟨u, r, by rw [huv, ← hr]; simp⟩

theorem not_mem_image (q : Char) (hq : q ∉ "&lt;&gt;".toList) (s : Str) (hs : q ∉ s) :
    q ∉ (s.map charImage).flatten := by
  intro h
  simp only [List.mem_flatten, List.mem_map] at h
  obtain ⟨l, ⟨c, hc, rfl⟩, hql⟩ := h
  unfold charImage at hql
  split_ifs at hql with h1 h2
  · exact hq ((by decide : ∀ x ∈ "&lt;".toList, x ∈ "&lt;&gt;".toList) q hql)
  · exact hq ((by decide : ∀ x ∈ "&gt;".toList, x ∈ "&lt;&gt;".toList) q hql)
  · rw [List.mem_singleton] at hql
    exact hs (hql ▸ hc)

theorem not_mem_convert (q : Char) (hq : q ∉ "<pre><code>&lt;&gt;</code></pre>".toList)
    (s : Str) (hs : q ∉ s) : q ∉ BasicCodeToHTML.convert s := by
  rw [convert_eq]
  intro h
  rcases List.mem_append.mp h with h | h
  · rcases List.mem_append.mp h with h | h
    · exact hq ((by decide : ∀ x ∈ "<pre><code>".toList,
        x ∈ "<pre><code>&lt;&gt;</code></pre>".toList) q h)
    · exact not_mem_image q (fun h' => hq ((by decide : ∀ x ∈ "&lt;&gt;".toList,
        x ∈ "<pre><code>&lt;&gt;</code></pre>".toList) q h')) s hs h
  · exact hq ((by decide : ∀ x ∈ "</code></pre>".toList,
      x ∈ "<pre><code>&lt;&gt;</code></pre>".toList) q h)

theorem not_mem_wrapIfKeyword (K : List Str) (q : Char)
    (hq : q ∉ "<span style='color: blue; font-weight: bold;'></span>".toList)
    (run : Str) (hrun : q ∉ run) : q ∉ wrapIfKeyword K run := by
  unfold wrapIfKeyword
  split_ifs
  · unfold keywordFormat
    intro h
    rcases List.mem_append.mp h with h | h
    · rcases List.mem_append.mp h with h | h
      · exact hq ((by decide : ∀ x ∈ "<span style='color: blue; font-weight: bold;'>".toList,
          x ∈ "<span style='color: blue; font-weight: bold;'></span>".toList) q h)
      · exact hrun h
    · exact hq ((by decide : ∀ x ∈ "</span>".toList,
        x ∈ "<span style='color: blue; font-weight: bold;'></span>".toList) q h)
  · exact hrun

theorem not_mem_wrapKeywordRuns (K : List Str) (q : Char)
    (hq : q ∉ "<span style='color: blue; font-weight: bold;'></span>".toList) (h : Str) :
    ∀ run, q ∉ run → q ∉ h → q ∉ wrapKeywordRuns K run h := by
  induction h with
  | nil => intro run hrun _; exact not_mem_wrapIfKeyword K q hq run hrun
  | cons c t ih =>
    intro run hrun hh
    have hc : q ≠ c := fun e => hh (e ▸ List.mem_cons_self _ _)
    have ht : q ∉ t := fun e => hh (List.mem_cons_of_mem _ e)
    by_cases hw : isWordChar c = true
    · rw [wrapKeywordRuns_word K run c t hw]
      exact ih _ (by simp [hrun, hc]) ht
    · have hw' : isWordChar c = false := by simpa using hw
      rw [wrapKeywordRuns_other K run c t hw']
      intro hmem
      rcases List.mem_append.mp hmem with hmem | hmem
      · exact not_mem_wrapIfKeyword K q hq run hrun hmem
      · rcases List.mem_cons.mp hmem with hmem | hmem
        · exact hc hmem
        · exact ih [] (by simp) ht hmem

theorem beforeComments_of_no_quote (src : Str) (hq : '"' ∉ src) :
    beforeComments src = keywordStage (BasicCodeToHTML.convert src) := by
  unfold beforeComments StringLiteralHighlighter.convert KeywordHighlighter.convert
  apply stringStage_id
  rw [keywordStage_eq]
  exact not_mem_wrapKeywordRuns keywords '"' (by decide) _ [] (by simp)
    (not_mem_convert '"' (by decide) src hq)
/-! ## Neighbouring slashes -/

theorem chain_of_no_slash (w : Str) (hw : '/' ∉ w) : List.Chain' NotSlashPair w := by
  induction w with
  | nil => exact List.chain'_nil
  | cons c w ih =>
    apply List.Chain'.cons' (ih (fun h => hw (List.mem_cons_of_mem _ h)))
    intro y _ hpair
    exact hw (hpair.1 ▸ List.mem_cons_self _ _)

theorem chain_append_of_last (a b : Str) (ha : List.Chain' NotSlashPair a)
    (hb : List.Chain' NotSlashPair b) (hlast : ∀ x ∈ a.getLast?, x ≠ '/') :
    List.Chain' NotSlashPair (a ++ b) :=
  List.chain'_append.mpr ⟨ha, hb, fun x hx _ _ h => hlast x hx h.1⟩

theorem chain_append_of_head (a b : Str) (ha : List.Chain' NotSlashPair a)
    (hb : List.Chain' NotSlashPair b) (hhead : ∀ y ∈ b.head?, y ≠ '/') :
    List.Chain' NotSlashPair (a ++ b) :=
  List.chain'_append.mpr ⟨ha, hb, fun _ _ y hy h => hhead y hy h.2⟩

theorem no_pair_of_chain (l : Str) (h : List.Chain' NotSlashPair l) : ¬ ['/', '/'] <:+: l := by
  rintro ⟨u, v, rfl⟩
  have h1 := (List.chain'_append.mp h).1
  have h2 := (List.chain'_append.mp h1).2.1
  exact (List.chain'_cons.mp h2).1 ⟨rfl, rfl⟩

theorem chain_of_no_pair (l : Str) (h : ¬ ['/', '/'] <:+: l) : List.Chain' NotSlashPair l := by
  induction l with
  | nil => exact List.chain'_nil
  | cons c t ih =>
    apply List.Chain'.cons' (ih (fun h' => h (h'.trans (List.suffix_cons c t).isInfix)))
    intro y hy hpair
    cases t with
    | nil => simp at hy
    | cons d t' =>
      simp only [List.head?_cons, Option.mem_def, Option.some.injEq] at hy
      apply h
      rw [hpair.1, hy, hpair.2]
      exact (List.prefix_append ['/', '/'] t').isInfix

theorem wrapIfKeyword_chain (K : List Str) (run : Str) (hrun : ∀ x ∈ run, isWordChar x = true) :
    List.Chain' NotSlashPair (wrapIfKeyword K run) ∧
    (∀ x ∈ (wrapIfKeyword K run).getLast?, x ≠ '/') ∧
    (∀ y ∈ (wrapIfKeyword K run).head?, y ≠ '/') ∧
    (wrapIfKeyword K run = [] → run = []) := by
  have hno : '/' ∉ run := fun h => absurd (hrun _ h) (by decide)
  unfold wrapIfKeyword
  split_ifs with hmem
  · unfold keywordFormat
    refine ⟨?_, ?_, ?_, ?_⟩
    · refine chain_append_of_head _ _ (chain_append_of_last _ _
        (chain_of_no_slash _ (by decide)) (chain_of_no_slash _ hno) (by decide))
        (chain_of_no_pair _ (by decide)) (by decide)
    · intro x hx
      have e : "<span style='color: blue; font-weight: bold;'>".toList ++ run ++
          "</span>".toList =
          ("<span style='color: blue; font-weight: bold;'>".toList ++ run ++
            "</span".toList) ++ ['>'] := by simp
      rw [e, List.getLast?_concat] at hx
      rw [← Option.some.inj hx]
      decide
    · intro y hy
      change (some '<' : Option Char) = some y at hy
      rw [← Option.some.inj hy]
      decide
    · intro h
      simp at h
  · refine ⟨chain_of_no_slash _ hno, ?_, ?_, fun h => h⟩
    · intro x hx hx'
      exact hno (hx' ▸ List.mem_of_mem_getLast? hx)
    · intro y hy hy'
      exact hno (hy' ▸ List.mem_of_mem_head? hy)

theorem wrapKeywordRuns_head (K : List Str) (h : Str) :
    ∀ run, (∀ x ∈ run, isWordChar x = true) →
      (wrapKeywordRuns K run h).head? = some '/' → run = [] ∧ h.head? = some '/' := by
  induction h with
  | nil =>
    intro run hrun hh
    rw [wrapKeywordRuns_nil] at hh
    exact absurd rfl ((wrapIfKeyword_chain K run hrun).2.2.1 '/' hh)
  | cons c t ih =>
    intro run hrun hh
    by_cases hw : isWordChar c = true
    · rw [wrapKeywordRuns_word K run c t hw] at hh
      have := (ih (run ++ [c]) (by
        intro x hx
        rcases List.mem_append.mp hx with hx | hx
        · exact hrun x hx
        · rw [List.mem_singleton.mp hx]; exact hw) hh).1
      simp at this
    · have hw' : isWordChar c = false := by simpa using hw
      rw [wrapKeywordRuns_other K run c t hw'] at hh
      obtain ⟨_, _, hhead, hnil⟩ := wrapIfKeyword_chain K run hrun
      cases hA : wrapIfKeyword K run with
      | nil =>
        rw [hA, List.nil_append, List.head?_cons] at hh
        exact ⟨hnil hA, hh⟩
      | cons a A' =>
        rw [hA, List.cons_append, List.head?_cons] at hh
        rw [hA] at hhead
        exact absurd (Option.some.inj hh) (hhead a rfl)

theorem wrapKeywordRuns_chain (K : List Str) (h : Str) :
    ∀ run, (∀ x ∈ run, isWordChar x = true) → List.Chain' NotSlashPair h →
      List.Chain' NotSlashPair (wrapKeywordRuns K run h) := by
  induction h with
  | nil => intro run hrun _; exact (wrapIfKeyword_chain K run hrun).1
  | cons c t ih =>
    intro run hrun hch
    by_cases hw : isWordChar c = true
    · rw [wrapKeywordRuns_word K run c t hw]
      exact ih (run ++ [c]) (by
        intro x hx
        rcases List.mem_append.mp hx with hx | hx
        · exact hrun x hx
        · rw [List.mem_singleton.mp hx]; exact hw) hch.tail
    · have hw' : isWordChar c = false := by simpa using hw
      rw [wrapKeywordRuns_other K run c t hw']
      obtain ⟨hA, hlast, _, _⟩ := wrapIfKeyword_chain K run hrun
      refine chain_append_of_last _ _ hA ?_ hlast
      apply List.Chain'.cons' (ih [] (by simp) hch.tail)
      intro y hy hpair
      have hy' : (wrapKeywordRuns K [] t).head? = some '/' := by rw [← hpair.2]; exact hy
      obtain ⟨_, ht⟩ := wrapKeywordRuns_head K t [] (by simp) hy'
      cases t with
      | nil => simp at ht
      | cons d t' =>
        simp only [List.head?_cons, Option.some.injEq] at ht
        rw [ht] at hch
        exact (List.chain'_cons.mp hch).1 ⟨hpair.1, rfl⟩

theorem image_head (s : Str) (h : ((s.map charImage).flatten).head? = some '/') :
    s.head? = some '/' := by
  cases s with
  | nil => simp at h
  | cons c t =>
    simp only [List.map_cons, List.flatten_cons, charImage] at h
    split_ifs at h with h1 h2
    · change (some '&' : Option Char) = some '/' at h
      exact absurd h (by decide)
    · change (some '&' : Option Char) = some '/' at h
      exact absurd h (by decide)
    · simpa using h

theorem image_chain (s : Str) (hs : List.Chain' NotSlashPair s) :
    List.Chain' NotSlashPair (s.map charImage).flatten := by
  induction s with
  | nil => exact List.chain'_nil
  | cons c t ih =>
    rw [List.map_cons, List.flatten_cons]
    refine List.chain'_append.mpr ⟨?_, ih hs.tail, ?_⟩
    · unfold charImage
      split_ifs
      · exact chain_of_no_slash _ (by decide)
      · exact chain_of_no_slash _ (by decide)
      · exact List.chain'_singleton c
    · intro x hx y hy hpair
      have hy' : ((t.map charImage).flatten).head? = some '/' := by rw [← hpair.2]; exact hy
      have ht := image_head t hy'
      have hc : c = '/' := by
        unfold charImage at hx
        split_ifs at hx with h1 h2
        · simp at hx; rw [← hx] at hpair; exact absurd hpair.1 (by decide)
        · simp at hx; rw [← hx] at hpair; exact absurd hpair.1 (by decide)
        · simp at hx; rw [hx]; exact hpair.1
      cases t with
      | nil => simp at ht
      | cons d t' =>
        simp only [List.head?_cons, Option.some.injEq] at ht
        rw [ht, hc] at hs
        exact (List.chain'_cons.mp hs).1 ⟨rfl, rfl⟩

theorem convert_chain (s : Str) (hs : List.Chain' NotSlashPair s) :
    List.Chain' NotSlashPair (BasicCodeToHTML.convert s) := by
  rw [convert_eq]
  exact chain_append_of_head _ _
    (chain_append_of_last _ _ (chain_of_no_slash _ (by decide)) (image_chain s hs) (by decide))
    (chain_of_no_pair _ (by decide)) (by decide)

theorem singleLinePass_of_no_pair (src : Str) (hno : ¬ "//".toList <:+: src) :
    singleLinePass (keywordStage (BasicCodeToHTML.convert src)) =
      keywordStage (BasicCodeToHTML.convert src) := by
  apply singleLinePass_id
  rw [keywordStage_eq]
  exact no_pair_of_chain _ (wrapKeywordRuns_chain keywords _ [] (by simp)
    (convert_chain src (chain_of_no_pair src hno)))
/-! ## The spans of the comment stage -/

theorem mem_regexMatches {re : Regex} {s : Str} {m : Match} (h : m ∈ regexMatches re s) :
    Piece.matched m ∈ scanFrom re none s := by
  unfold regexMatches at h
  obtain ⟨x, hx, hm⟩ := List.mem_filterMap.mp h
  cases x with
  | copied c => simp at hm
  | matched m' =>
    simp only [Option.some.injEq] at hm
    exact hm ▸ hx

theorem keywordStage_convert_tiled (src : Str) :
    Tiled keywordUnits (keywordStage (BasicCodeToHTML.convert src)) :=
  keywordStage_tiled _ (convert_tiled src)

theorem singleLine_group_tiled (h : Str) (ht : Tiled keywordUnits h) (m : Match)
    (hm : m ∈ regexMatches singleLineCommentRegex h) : Tiled keywordUnits m.group1 := by
  rw [singleLineCommentRegex_eq] at hm
  exact (scan_tiled keywordUnits ['/', '/'] Atom.dot '\n' [] (by decide) (by decide)
    (by decide) (by decide) (by decide) h none ht).group_tiled m (mem_regexMatches hm)

theorem block_group_tiled (h : Str) (ht : Tiled keywordUnits h) (m : Match)
    (hm : m ∈ regexMatches multiLineCommentRegex h) : Tiled keywordUnits m.group1 := by
  rw [multiLineCommentRegex_eq] at hm
  exact (scan_tiled keywordUnits ['/', '*'] Atom.spaceOrNonSpace '*' ['/'] (by decide)
    (by decide) (by decide) (by decide) (by decide) h none ht).group_tiled m
    (mem_regexMatches hm)

theorem singleLineWrapped_nested (h : Str) (ht : Tiled keywordUnits h) :
    ∀ w ∈ singleLineWrapped h, spansNested 0 w = true := by
  intro w hw
  unfold singleLineWrapped at hw
  obtain ⟨m, hm, rfl⟩ := List.mem_map.mp hw
  have hg := singleLine_group_tiled h ht m hm
  have := spansNested_tiled hg 0 []
  rw [List.append_nil] at this
  rw [spansNested_skip 0 "//".toList m.group1 (by decide), this]
  rfl

theorem blockWrapped_nested (h : Str) (ht : Tiled keywordUnits h) :
    ∀ w ∈ blockWrapped h, spansNested 0 w = true := by
  intro w hw
  unfold blockWrapped at hw
  obtain ⟨m, hm, rfl⟩ := List.mem_map.mp hw
  have hg := block_group_tiled h ht m hm
  rw [List.append_assoc, spansNested_skip 0 "/*".toList _ (by decide),
    spansNested_tiled hg 0 "*/".toList]
  rfl

theorem comment_spans_nested (src : Str) (hq : '"' ∉ src) :
    (∀ w ∈ singleLineWrapped (beforeComments src), spansNested 0 w = true) ∧
    (¬ "//".toList <:+: src →
      ∀ w ∈ blockWrapped (singleLinePass (beforeComments src)), spansNested 0 w = true) := by
  rw [beforeComments_of_no_quote src hq]
  refine ⟨singleLineWrapped_nested _ (keywordStage_convert_tiled src), ?_⟩
  intro hno
  rw [singleLinePass_of_no_pair src hno]
  exact blockWrapped_nested _ (keywordStage_convert_tiled src)
/-! ## Texts in which a pattern has no match -/

theorem regex_replace_id_of_no_match (re : Regex) (fmt h : Str)
    (hno : ∀ u x v, h = u ++ x :: v → matchHere re (lastOr none u) (x :: v) = none) :
    regex_replace h re fmt = h := by
  have hskip : ∀ u x v, h = u ++ x :: v →
      matchHere re (lastOr none u) (x :: v ++ []) = none := by
    intro u x v huv
    rw [List.append_nil]
    exact hno u x v huv
  have := scanFrom_skip re h [] none hskip
  rw [List.append_nil] at this
  rw [regex_replace_eq, this, scanFrom_nil, List.append_nil, renderAll_copied]

/-- A match of a pattern `l₁(a*?)l₂` reads `l₁`, then characters that `a`
accepts, then `l₂`. -/
theorem delimited_match_text (l₁ : Str) (a : Atom) (l₂ : Str) (p : Option Char) (s : Str)
    (m : Match) (h : matchHere (delimited l₁ a l₂) p s = some m) :
    s = l₁ ++ (m.group1 ++ (l₂ ++ m.suffix)) ∧ ∀ c ∈ m.group1, a.accepts c = true := by
  obtain ⟨hshape, hs, hg⟩ := delimited_shape l₁ a l₂ p s m h
  refine ⟨?_, hg⟩
  rw [hs, hshape]
  simp

theorem blockPass_id (h : Str) (hno : ¬ "*/".toList <:+: h) : blockPass h = h := by
  unfold blockPass
  apply regex_replace_id_of_no_match
  intro u x v huv
  cases hm : matchHere multiLineCommentRegex (lastOr none u) (x :: v) with
  | none => rfl
  | some m =>
    exfalso
    rw [multiLineCommentRegex_eq] at hm
    obtain ⟨hs, _⟩ := delimited_match_text _ _ _ _ _ m hm
    apply hno
    refine ⟨u ++ (['/', '*'] ++ m.group1), m.suffix, ?_⟩
    rw [huv, hs]
    simp

theorem commentStage_id (h : Str) (hblock : ¬ "*/".toList <:+: h)
    (hline : ¬ "//".toList <:+: h) : commentStage h = h := by
  unfold commentStage
  rw [singleLinePass_id h hline, blockPass_id h hblock]

theorem singleLinePass_id_of_no_newline (h : Str) (hno : '\n' ∉ h) : singleLinePass h = h := by
  unfold singleLinePass
  apply regex_replace_id_of_no_match
  intro u x v huv
  cases hm : matchHere singleLineCommentRegex (lastOr none u) (x :: v) with
  | none => rfl
  | some m =>
    exfalso
    rw [singleLineCommentRegex_eq] at hm
    obtain ⟨hs, _⟩ := delimited_match_text _ _ _ _ _ m hm
    apply hno
    rw [huv, hs]
    simp

theorem stringStage_id_of_one_quote (h : Str) (hq : h.count '"' ≤ 1) : stringStage h = h := by
  unfold stringStage
  apply regex_replace_id_of_no_match
  intro u x v huv
  cases hm : matchHere stringRegex (lastOr none u) (x :: v) with
  | none => rfl
  | some m =>
    exfalso
    rw [stringRegex_eq] at hm
    obtain ⟨hs, _⟩ := delimited_match_text _ _ _ _ _ m hm
    have : 2 ≤ h.count '"' := by
      rw [huv, hs]
      simp only [List.count_append, List.count_cons_self, List.count_nil]
      omega
    omega

/-- A quote followed by a line terminator before the next quote is not the start
of a match. -/
theorem stringRegex_none_across_line (t b : Str) (p : Option Char) (ht : '"' ∉ t)
    (hline : '\n' ∈ t ∨ '\r' ∈ t) :
    matchHere stringRegex p ('"' :: (t ++ '"' :: b)) = none := by
  cases hm : matchHere stringRegex p ('"' :: (t ++ '"' :: b)) with
  | none => rfl
  | some m =>
    exfalso
    rw [stringRegex_eq] at hm
    obtain ⟨hs, hg⟩ := delimited_match_text _ _ _ _ _ m hm
    have hs' : t ++ '"' :: b = m.group1 ++ '"' :: m.suffix := by
      simpa using hs
    have hsub : ∀ c ∈ t, c ∈ m.group1 := by
      rcases List.append_eq_append_iff.mp hs' with ⟨a', h1, h2⟩ | ⟨c', h1, h2⟩
      · intro c hc
        rw [h1]
        exact List.mem_append_left _ hc
      · cases c' with
        | nil =>
          rw [List.append_nil] at h1
          intro c hc
          rw [← h1]
          exact hc
        | cons y c'' =>
          exfalso
          rw [List.cons_append] at h2
          apply ht
          rw [h1, ← (List.cons.inj h2).1]
          simp
    rcases hline with hl | hl
    · have := hg _ (hsub _ hl)
      simp [Atom.accepts] at this
    · have := hg _ (hsub _ hl)
      simp [Atom.accepts] at this

theorem stringStage_across_line (a t b : Str) (ha : '"' ∉ a) (ht : '"' ∉ t)
    (hline : '\n' ∈ t ∨ '\r' ∈ t) :
    stringStage (a ++ "\"".toList ++ t ++ "\"".toList ++ b) =
      a ++ "\"".toList ++ stringStage (t ++ "\"".toList ++ b) := by
  have hre : Node.wordBoundary ∉ stringRegex := by
    rw [stringRegex_eq]; exact delimited_no_boundary _ _ _
  have e : a ++ "\"".toList ++ t ++ "\"".toList ++ b = a ++ ('"' :: (t ++ '"' :: b)) := by
    simp
  have e' : t ++ "\"".toList ++ b = t ++ '"' :: b := by simp
  unfold stringStage
  rw [e, e', regex_replace_eq, regex_replace_eq,
    scanFrom_skip stringRegex a _ none (fun u x v huv => by
      rw [stringRegex_eq]
      exact delimited_none _ _ _ _ _ (no_start_of_not_mem '"' a _ ha [] u x v huv)),
    scanFrom_miss stringRegex _ '"' _ (stringRegex_none_across_line t b _ ht hline),
    renderAll_append, renderAll_copied, renderAll_cons,
    scanFrom_prev stringRegex hre _ (some '"') none]
  simp [Piece.render]
/-! ## No stage shortens the text -/

theorem scan_length (re : Regex) (fmt : Str)
    (hfmt : ∀ p s m, matchHere re p s = some m →
      m.whole.length ≤ (formatReplacement m fmt).length) (s : Str) :
    ∀ p, s.length ≤ (renderAll fmt (scanFrom re p s)).length := by
  obtain ⟨n, hn⟩ : ∃ n, s.length = n := ⟨_, rfl⟩
  induction n using Nat.strong_induction_on generalizing s with
  | _ n ih =>
    intro p
    cases s with
    | nil => simp
    | cons c t =>
      cases hm : nonEmptyMatch re p (c :: t) with
      | none =>
        rw [scanFrom_pass re p c t hm, renderAll_cons]
        have := ih _ (by rw [← hn]; simp) t rfl (some c)
        simp only [Piece.render, List.length_append, List.length_cons, List.length_nil]
        omega
      | some m =>
        obtain ⟨hmatch, hw, hs⟩ := nonEmptyMatch_some hm
        have hlen : m.suffix.length < n := by
          have : 0 < m.whole.length := List.length_pos.mpr hw
          rw [← hn, hs, List.length_append]; omega
        have h1 := ih _ hlen m.suffix rfl (lastOr none m.whole)
        have h2 := hfmt p _ m hmatch
        rw [scanFrom_found re p _ m hm, renderAll_cons]
        have h3 : (c :: t).length = m.whole.length + m.suffix.length := by
          rw [hs, List.length_append]
        rw [h3]
        simp only [Piece.render, List.length_append]
        omega

theorem regex_replace_length (re : Regex) (fmt : Str)
    (hfmt : ∀ p s m, matchHere re p s = some m →
      m.whole.length ≤ (formatReplacement m fmt).length) (s : Str) :
    s.length ≤ (regex_replace s re fmt).length := by
  rw [regex_replace_eq]
  exact scan_length re fmt hfmt s none

theorem stringStage_length (h : Str) : h.length ≤ (stringStage h).length := by
  unfold stringStage
  apply regex_replace_length
  intro p s m hm
  rw [stringRegex_eq] at hm
  obtain ⟨hshape, _, _⟩ := delimited_shape _ _ _ _ _ m hm
  rw [stringFormat_expand, hshape]
  have h1 : 2 ≤ "<span style='color: green;'>\"".toList.length +
      "\"</span>".toList.length := by decide
  simp only [List.length_append, List.length_cons, List.length_nil]
  omega

theorem singleLinePass_length (h : Str) : h.length ≤ (singleLinePass h).length := by
  unfold singleLinePass
  apply regex_replace_length
  intro p s m hm
  rw [singleLineCommentRegex_eq] at hm
  obtain ⟨hshape, _, _⟩ := delimited_shape _ _ _ _ _ m hm
  rw [singleLineCommentFormat_expand, hshape]
  have h1 : 3 ≤ "<span style='color: gray;'>//".toList.length +
      "</span>\n".toList.length := by decide
  simp only [List.length_append, List.length_cons, List.length_nil]
  omega

theorem blockPass_length (h : Str) : h.length ≤ (blockPass h).length := by
  unfold blockPass
  apply regex_replace_length
  intro p s m hm
  rw [multiLineCommentRegex_eq] at hm
  obtain ⟨hshape, _, _⟩ := delimited_shape _ _ _ _ _ m hm
  rw [multiLineCommentFormat_expand, hshape]
  have h1 : 4 ≤ "<span style='color: gray;'>/*".toList.length +
      "*/</span>".toList.length := by decide
  simp only [List.length_append, List.length_cons, List.length_nil]
  omega

theorem keyword_pass_length (k : Str) (hk : k ∈ keywords) (h : Str) :
    h.length ≤ (regex_replace h (keywordRegex k) (keywordFormat k)).length := by
  apply regex_replace_length
  intro p s m hm
  obtain ⟨_, rest, _, _, rfl⟩ := keyword_some k s p m hm
  rw [formatReplacement_plain _ _ (keywords_good k hk).2.2.1]
  unfold keywordFormat
  simp only [List.length_append]
  omega

theorem keyword_loop_length (todo : List Str) (htodo : ∀ k ∈ todo, k ∈ keywords) :
    ∀ h : Str, h.length ≤ (todo.foldl (fun html keyword =>
      regex_replace html (keywordRegex keyword) (keywordFormat keyword)) h).length := by
  induction todo with
  | nil => intro h; exact Nat.le_refl _
  | cons k todo ih =>
    intro h
    rw [List.foldl_cons]
    exact Nat.le_trans (keyword_pass_length k (htodo k (List.mem_cons_self _ _)) h)
      (ih (fun k' hk' => htodo k' (List.mem_cons_of_mem _ hk')) _)

theorem keywordStage_length (h : Str) : h.length ≤ (keywordStage h).length :=
  keyword_loop_length keywords (fun _ hk => hk) h

theorem image_length (s : Str) : s.length ≤ (s.map charImage).flatten.length := by
  induction s with
  | nil => simp
  | cons c t ih =>
    have hc : 1 ≤ (charImage c).length := by
      unfold charImage
      split_ifs <;> simp
    simp only [List.map_cons, List.flatten_cons, List.length_append, List.length_cons]
    omega

theorem convert_length (s : Str) : s.length + 24 ≤ (BasicCodeToHTML.convert s).length := by
  rw [convert_eq]
  have := image_length s
  have h1 : "<pre><code>".toList.length = 11 := rfl
  have h2 : "</code></pre>".toList.length = 13 := rfl
  simp only [List.length_append, h1, h2]
  omega

theorem pipeline_length (s : Str) : s.length + 24 ≤ (pipeline s).length := by
  show s.length + 24 ≤
    (blockPass (singleLinePass (stringStage (keywordStage (BasicCodeToHTML.convert s))))).length
  exact Nat.le_trans (convert_length s)
    (Nat.le_trans (keywordStage_length _)
      (Nat.le_trans (stringStage_length _)
        (Nat.le_trans (singleLinePass_length _) (blockPass_length _))))

theorem pipeline_not_fixed (x : Str) : pipeline x ≠ x := by
  intro h
  have := pipeline_length x
  rw [h] at this
  omega
/-! ## The span tags of the output are balanced -/

theorem spansNested_close_zero (X : Str) : spansNested 0 ("</span>".toList ++ X) = false := by
  show spansNested 0 ('<' :: ("/span>".toList ++ X)) = _
  rw [spansNested, if_neg, if_pos]
  · rfl
  · show List.isPrefixOf "</span>".toList ("</span>".toList ++ X) = true
    simp
  · rw [show List.isPrefixOf "<span ".toList ('<' :: ("/span>".toList ++ X)) = false from rfl]
    simp

/-- What each of the eight tags does to the depth of open spans. -/
theorem spansNested_tag : ∀ b ∈ tags,
    (∀ (d : Nat) (X : Str), spansNested d (b ++ X) = spansNested d X) ∨
    (∀ (d : Nat) (X : Str), spansNested d (b ++ X) = spansNested (d + 1) X) ∨
    ((∀ X : Str, spansNested 0 (b ++ X) = false) ∧
      ∀ (d : Nat) (X : Str), spansNested (d + 1) (b ++ X) = spansNested d X) := by
  intro b hb
  simp only [tags, List.mem_cons, List.mem_singleton, List.not_mem_nil, or_false] at hb
  rcases hb with rfl | rfl | rfl | rfl | rfl | rfl | rfl | rfl
  · exact Or.inl (fun _ _ => rfl)
  · exact Or.inl (fun _ _ => rfl)
  · exact Or.inl (fun _ _ => rfl)
  · exact Or.inl (fun _ _ => rfl)
  · refine Or.inr (Or.inl (fun d X => ?_))
    show spansNested d ("<span ".toList ++
      ("style='color: blue; font-weight: bold;'>".toList ++ X)) = _
    rw [spansNested_open, spansNested_skip _ _ _ (by decide)]
  · refine Or.inr (Or.inl (fun d X => ?_))
    show spansNested d ("<span ".toList ++ ("style='color: green;'>".toList ++ X)) = _
    rw [spansNested_open, spansNested_skip _ _ _ (by decide)]
  · refine Or.inr (Or.inl (fun d X => ?_))
    show spansNested d ("<span ".toList ++ ("style='color: gray;'>".toList ++ X)) = _
    rw [spansNested_open, spansNested_skip _ _ _ (by decide)]
  · exact Or.inr (Or.inr ⟨spansNested_close_zero, spansNested_close⟩)

theorem spansNested_tag_mono (b : Str) (hb : b ∈ tags) (X Y : Str)
    (h : ∀ d, spansNested d X = true → spansNested d Y = true) :
    ∀ d, spansNested d (b ++ X) = true → spansNested d (b ++ Y) = true := by
  intro d hd
  rcases spansNested_tag b hb with h1 | h2 | ⟨h3, h4⟩
  · rw [h1] at hd ⊢; exact h d hd
  · rw [h2] at hd ⊢; exact h _ hd
  · cases d with
    | zero => rw [h3] at hd; exact absurd hd (by simp)
    | succ d => rw [h4] at hd ⊢; exact h d hd

/-- A tiled text read one span deeper. -/
theorem spansNested_shift {g : Str} (hg : Tiled tags g) (X Y : Str)
    (h : ∀ d, spansNested d X = true → spansNested (d + 1) Y = true) :
    ∀ d, spansNested d (g ++ X) = true → spansNested (d + 1) (g ++ Y) = true := by
  induction hg with
  | nil => exact h
  | char c t hc _ ih =>
    intro d hd
    have hc' := ((isPlainChar_iff c).mp hc).1
    rw [List.cons_append, spansNested_other _ c _ hc'] at hd ⊢
    exact ih d hd
  | block b t hb _ ih =>
    intro d hd
    rw [List.append_assoc] at hd ⊢
    rcases spansNested_tag b hb with h1 | h2 | ⟨h3, h4⟩
    · rw [h1] at hd ⊢; exact ih d hd
    · rw [h2] at hd ⊢; exact ih _ hd
    · cases d with
      | zero => rw [h3] at hd; exact absurd hd (by simp)
      | succ d => rw [h4] at hd ⊢; exact ih d hd

/-- A replacement by a pattern `l₁(a*?)l₂` whose format puts a span around the
match keeps the span tags of a tiled text balanced. -/
theorem scan_balanced (l₁ : Str) (a : Atom) (d₂ : Char) (l₂' fmt a₁ a₂ a₃ : Str)
    (hstart : ∀ b ∈ tags, ∀ v ∈ b.tails, v ≠ [] → ¬ l₁ <+: v ∧ ¬ v <+: l₁)
    (hl₁ : ∀ c ∈ l₁, ∀ b ∈ tags, b.head? ≠ some c)
    (hd₂ : ∀ b ∈ tags, d₂ ∉ b)
    (hl₂' : ∀ c ∈ l₂', ∀ b ∈ tags, b.head? ≠ some c)
    (hfmt : ∀ m : Match, formatReplacement m fmt =
      "<span ".toList ++ (a₁ ++ (m.group1 ++ (a₂ ++ ("</span>".toList ++ a₃)))))
    (hl₁' : ∀ c ∈ l₁, c ≠ '<') (hl₂ : ∀ c ∈ d₂ :: l₂', c ≠ '<')
    (ha₁ : ∀ c ∈ a₁, c ≠ '<') (ha₂ : ∀ c ∈ a₂, c ≠ '<') (ha₃ : ∀ c ∈ a₃, c ≠ '<')
    (s : Str) :
    ∀ p, Tiled tags s → ∀ d, spansNested d s = true →
      spansNested d (renderAll fmt (scanFrom (delimited l₁ a (d₂ :: l₂')) p s)) = true := by
  have hne : ∀ b ∈ tags, b ≠ [] := by decide
  obtain ⟨n, hn⟩ : ∃ n, s.length = n := ⟨_, rfl⟩
  induction n using Nat.strong_induction_on generalizing s with
  | _ n ih =>
    intro p h d hd
    cases h with
    | nil => rw [scanFrom_nil]; exact hd
    | char c t hc ht =>
      cases hm : nonEmptyMatch (delimited l₁ a (d₂ :: l₂')) p (c :: t) with
      | none =>
        have hc' := ((isPlainChar_iff c).mp hc).1
        rw [scanFrom_pass _ p c t hm, renderAll_cons]
        show spansNested d (c :: _) = true
        rw [spansNested_other _ c _ hc'] at hd ⊢
        exact ih _ (by rw [← hn]; simp) t rfl _ ht d hd
      | some m =>
        obtain ⟨hmatch, hw, hs⟩ := nonEmptyMatch_some hm
        obtain ⟨htext, _⟩ := delimited_match_text l₁ a (d₂ :: l₂') p _ m hmatch
        have htiled : Tiled tags (l₁ ++ (m.group1 ++ d₂ :: (l₂' ++ m.suffix))) := by
          have := Tiled.char c t hc ht
          rw [htext] at this
          simpa using this
        obtain ⟨hg, hrest⟩ := Tiled.split d₂ hd₂ _ _ (Tiled.drop_lits hne l₁ hl₁ _ htiled)
        have hsuffix := Tiled.drop_lits hne l₂' hl₂' _ hrest
        have hlen : m.suffix.length < n := by
          have : 0 < m.whole.length := List.length_pos.mpr hw
          rw [← hn, hs, List.length_append]; omega
        have hrec := ih _ hlen m.suffix rfl (lastOr none m.whole) hsuffix
        rw [scanFrom_found _ p _ m hm, renderAll_cons]
        show spansNested d (formatReplacement m fmt ++ _) = true
        rw [hfmt]
        simp only [List.append_assoc]
        rw [spansNested_open, spansNested_skip _ a₁ _ ha₁]
        rw [htext, spansNested_skip _ l₁ _ hl₁'] at hd
        refine spansNested_shift hg _ _ ?_ d hd
        intro d' hd'
        rw [spansNested_skip _ _ _ hl₂] at hd'
        rw [spansNested_skip _ a₂ _ ha₂, spansNested_close, spansNested_skip _ a₃ _ ha₃]
        exact hrec d' hd'
    | block b t hb ht =>
      have hskip : ∀ u x v, b = u ++ x :: v →
          matchHere (delimited l₁ a (d₂ :: l₂')) (lastOr p u) (x :: v ++ t) = none := by
        intro u x v huv
        have hmem : x :: v ∈ b.tails := by
          rw [List.mem_tails, huv]
          exact List.suffix_append u (x :: v)
        obtain ⟨h1, h2⟩ := hstart b hb (x :: v) hmem (by simp)
        exact delimited_none l₁ a _ _ _ (no_start_in_block l₁ (x :: v) t h1 h2)
      have hlen : t.length < n := by
        have : 0 < b.length := List.length_pos.mpr (hne b hb)
        rw [← hn, List.length_append]; omega
      rw [scanFrom_skip _ b t p hskip, renderAll_append, renderAll_copied]
      exact spansNested_tag_mono b hb _ _ (ih _ hlen t rfl _ ht) d hd
theorem stringStage_balanced (h : Str) (ht : Tiled tags h) :
    ∀ d, spansNested d h = true → spansNested d (stringStage h) = true := by
  unfold stringStage
  rw [regex_replace_eq, stringRegex_eq]
  exact scan_balanced ['"'] Atom.dot '"' [] stringFormat "style='color: green;'>\"".toList
    "\"".toList [] (by decide) (by decide) (by decide) (by decide) (fun _ => rfl)
    (by decide) (by decide) (by decide) (by decide) (by decide) h none ht

theorem singleLinePass_balanced (h : Str) (ht : Tiled tags h) :
    ∀ d, spansNested d h = true → spansNested d (singleLinePass h) = true := by
  unfold singleLinePass
  rw [regex_replace_eq, singleLineCommentRegex_eq]
  exact scan_balanced ['/', '/'] Atom.dot '\n' [] singleLineCommentFormat
    "style='color: gray;'>//".toList [] "\n".toList (by decide) (by decide) (by decide)
    (by decide) (fun _ => rfl) (by decide) (by decide) (by decide) (by decide) (by decide)
    h none ht

theorem blockPass_balanced (h : Str) (ht : Tiled tags h) :
    ∀ d, spansNested d h = true → spansNested d (blockPass h) = true := by
  unfold blockPass
  rw [regex_replace_eq, multiLineCommentRegex_eq]
  exact scan_balanced ['/', '*'] Atom.spaceOrNonSpace '*' ['/'] multiLineCommentFormat
    "style='color: gray;'>/*".toList "*/".toList [] (by decide) (by decide) (by decide)
    (by decide) (fun _ => rfl) (by decide) (by decide) (by decide) (by decide) (by decide)
    h none ht

theorem pipeline_balanced (s : Str) : spansNested 0 (pipeline s) = true := by
  have hk := keywordStage_convert_tiled s
  have hk' : Tiled tags (keywordStage (BasicCodeToHTML.convert s)) :=
    Tiled.mono keywordUnits_tiled hk
  have h0 : spansNested 0 (keywordStage (BasicCodeToHTML.convert s)) = true := by
    have := spansNested_tiled hk 0 []
    rw [List.append_nil] at this
    rw [this]
    rfl
  have hs := stringStage_tiled _ hk'
  have hl := singleLinePass_tiled _ hs
  show spansNested 0
    (blockPass (singleLinePass (stringStage (keywordStage (BasicCodeToHTML.convert s))))) = true
  exact blockPass_balanced _ hl 0
    (singleLinePass_balanced _ hs 0 (stringStage_balanced _ hk' 0 h0))
theorem open_close_exclusive (s : Str) (h : "<span ".toList.isPrefixOf s = true) :
    "</span>".toList.isPrefixOf s = false := by
  obtain ⟨r, rfl⟩ := List.isPrefixOf_iff_prefix.mp h
  rfl

/-- In a text whose span tags nest properly from depth `d`, the closing tags are
`d` more than the opening ones. -/
theorem spansNested_counts (s : Str) : ∀ d, spansNested d s = true →
    countStarts "</span>".toList s = d + countStarts "<span ".toList s := by
  induction s with
  | nil =>
    intro d hd
    simp only [spansNested, beq_iff_eq] at hd
    simp [countStarts, hd]
  | cons c t ih =>
    intro d hd
    rw [spansNested] at hd
    rw [countStarts, countStarts]
    by_cases h1 : "<span ".toList.isPrefixOf (c :: t) = true
    · rw [if_pos h1] at hd
      rw [if_pos h1, if_neg (by rw [open_close_exclusive _ h1]; simp), ih _ hd]
      omega
    · rw [if_neg h1] at hd
      rw [if_neg h1]
      by_cases h2 : "</span>".toList.isPrefixOf (c :: t) = true
      · rw [if_pos h2] at hd
        rw [if_pos h2]
        simp only [Bool.and_eq_true, bne_iff_ne, ne_eq] at hd
        rw [ih _ hd.2]
        omega
      · rw [if_neg h2] at hd
        rw [if_neg h2, ih _ hd]
        omega
/-! ## Tilings by a family of blocks -/

theorem TiledBy.glue {B : Str → Prop} {a b : Str} (ha : TiledBy B a) (hb : TiledBy B b) :
    TiledBy B (a ++ b) := by
  induction ha with
  | nil => exact hb
  | char c t hc _ ih => exact TiledBy.char c _ hc ih
  | block blk t hblk _ ih => rw [List.append_assoc]; exact TiledBy.block blk _ hblk ih

theorem TiledBy.of_characters {B : Str → Prop} (w : Str) (hw : ∀ c ∈ w, isPlainChar c = true) :
    TiledBy B w := by
  induction w with
  | nil => exact TiledBy.nil
  | cons c w ih =>
    exact TiledBy.char c w (hw c (List.mem_cons_self _ _))
      (ih (fun x hx => hw x (List.mem_cons_of_mem _ hx)))

theorem TiledBy.of_one {B : Str → Prop} (b : Str) (hb : B b) : TiledBy B b := by
  have := TiledBy.block b [] hb TiledBy.nil
  rwa [List.append_nil] at this

theorem TiledBy.widen {B B' : Str → Prop} (hBB' : ∀ b, B b → B' b) {s : Str}
    (h : TiledBy B s) : TiledBy B' s := by
  induction h with
  | nil => exact TiledBy.nil
  | char c t hc _ ih => exact TiledBy.char c t hc ih
  | block blk t hblk _ ih => exact TiledBy.block blk t (hBB' blk hblk) ih

theorem TiledBy.of_tiled {U : List Str} {s : Str} (h : Tiled U s) :
    TiledBy (fun u => u ∈ U) s := by
  induction h with
  | nil => exact TiledBy.nil
  | char c t hc _ ih => exact TiledBy.char c t hc ih
  | block blk t hblk _ ih => exact TiledBy.block blk t hblk ih

theorem TiledBy.anything (s : Str) : TiledBy (fun _ => True) s :=
  TiledBy.of_one s trivial

/-- A tiled text splits at a character that occurs in no block. -/
theorem TiledBy.split_char {B : Str → Prop} (c : Char) (hc : ∀ b, B b → c ∉ b) :
    ∀ (a b : Str), TiledBy B (a ++ c :: b) → TiledBy B a ∧ TiledBy B b := by
  intro a b h
  generalize hs : a ++ c :: b = s at h
  induction h generalizing a with
  | nil => simp at hs
  | char x t hx ht ih =>
    cases a with
    | nil =>
      rw [List.nil_append] at hs
      exact ⟨TiledBy.nil, (List.cons.inj hs).2 ▸ ht⟩
    | cons y a' =>
      rw [List.cons_append] at hs
      obtain ⟨hyx, hrest⟩ := List.cons.inj hs
      obtain ⟨h1, h2⟩ := ih a' hrest
      exact ⟨hyx ▸ TiledBy.char x a' hx h1, h2⟩
  | block blk t hblk ht ih =>
    rcases List.append_eq_append_iff.mp hs with ⟨a', h1, h2⟩ | ⟨c', h1, h2⟩
    · cases a' with
      | nil =>
        rw [List.nil_append] at h2
        rw [List.append_nil] at h1
        obtain ⟨_, hb⟩ := ih [] (by rw [List.nil_append]; exact h2)
        exact ⟨h1 ▸ TiledBy.of_one a (h1 ▸ hblk), hb⟩
      | cons x a'' =>
        rw [List.cons_append] at h2
        have hcx : c = x := (List.cons.inj h2).1
        exfalso
        apply hc blk hblk
        rw [h1, hcx]
        simp
    · obtain ⟨h3, h4⟩ := ih c' h2.symm
      exact ⟨h1 ▸ (TiledBy.of_one blk hblk).glue h3, h4⟩

/-- A tiled text that starts with a character with which no block starts has a
tiled tail. -/
theorem TiledBy.behead {B : Str → Prop} (hne : ∀ b, B b → b ≠ []) (c : Char)
    (hc : ∀ b, B b → b.head? ≠ some c) (t : Str) (h : TiledBy B (c :: t)) : TiledBy B t := by
  generalize hs : c :: t = s at h
  cases h with
  | nil => simp at hs
  | char x t' hx ht => exact (List.cons.inj hs).2 ▸ ht
  | block blk t' hblk ht =>
    exfalso
    cases blk with
    | nil => exact hne [] hblk rfl
    | cons y blk' =>
      rw [List.cons_append] at hs
      apply hc _ hblk
      rw [(List.cons.inj hs).1]
      rfl

theorem TiledBy.drop_literals {B : Str → Prop} (hne : ∀ b, B b → b ≠ []) (l : Str)
    (hl : ∀ c ∈ l, ∀ b, B b → b.head? ≠ some c) (t : Str) (h : TiledBy B (l ++ t)) :
    TiledBy B t := by
  induction l with
  | nil => exact h
  | cons c l ih =>
    exact ih (fun x hx => hl x (List.mem_cons_of_mem _ hx))
      (TiledBy.behead hne c (hl c (List.mem_cons_self _ _)) _ h)

/-- A tiled text splits at `c` followed by `d` when no block holds `c` followed by
`d`, ends with `c` or starts with `d`. -/
theorem TiledBy.split_pair {B : Str → Prop} (c d : Char) (hne : ∀ b, B b → b ≠ [])
    (hocc : ∀ b, B b → ¬ [c, d] <:+: b)
    (hlast : ∀ b, B b → b.getLast? ≠ some c)
    (hhead : ∀ b, B b → b.head? ≠ some d) :
    ∀ (a r : Str), TiledBy B (a ++ c :: d :: r) → TiledBy B a ∧ TiledBy B r := by
  intro a r h
  generalize hs : a ++ c :: d :: r = s at h
  induction h generalizing a with
  | nil => simp at hs
  | char x t hx ht ih =>
    cases a with
    | nil =>
      rw [List.nil_append] at hs
      have ht' : TiledBy B (d :: r) := (List.cons.inj hs).2 ▸ ht
      exact ⟨TiledBy.nil, TiledBy.behead hne d hhead r ht'⟩
    | cons y a' =>
      rw [List.cons_append] at hs
      obtain ⟨hyx, hrest⟩ := List.cons.inj hs
      obtain ⟨h1, h2⟩ := ih a' hrest
      exact ⟨hyx ▸ TiledBy.char x a' hx h1, h2⟩
  | block blk t hblk ht ih =>
    rcases List.append_eq_append_iff.mp hs with ⟨a', h1, h2⟩ | ⟨c', h1, h2⟩
    · -- `blk = a ++ a'` and `c :: d :: r = a' ++ t`
      cases a' with
      | nil =>
        rw [List.nil_append] at h2
        rw [List.append_nil] at h1
        obtain ⟨_, hb⟩ := ih [] (by rw [List.nil_append]; exact h2)
        exact ⟨h1 ▸ TiledBy.of_one a (h1 ▸ hblk), hb⟩
      | cons x a'' =>
        exfalso
        rw [List.cons_append] at h2
        obtain ⟨hcx, h2'⟩ := List.cons.inj h2
        cases a'' with
        | nil =>
          apply hlast blk hblk
          rw [h1, ← hcx]
          simp
        | cons y a''' =>
          rw [List.cons_append] at h2'
          apply hocc blk hblk
          rw [h1, ← hcx, ← (List.cons.inj h2').1]
          exact ⟨a, a''', by simp⟩
    · obtain ⟨h3, h4⟩ := ih c' h2.symm
      exact ⟨h1 ▸ (TiledBy.of_one blk hblk).glue h3, h4⟩

/-- A text tiled by blocks that leave the depth of open spans as it was leaves it
as it was. -/
theorem spansNested_tiledBy {B : Str → Prop}
    (hB : ∀ b, B b → ∀ (d : Nat) (X : Str), spansNested d (b ++ X) = spansNested d X)
    {g : Str} (h : TiledBy B g) :
    ∀ (d : Nat) (X : Str), spansNested d (g ++ X) = spansNested d X := by
  induction h with
  | nil => intro d X; rfl
  | char c t hc _ ih =>
    intro d X
    rw [List.cons_append, spansNested_other d c _ ((isPlainChar_iff c).mp hc).1, ih]
  | block b t hb _ ih =>
    intro d X
    rw [List.append_assoc, hB b hb, ih]
/-! ## Scanning a text tiled by a family of blocks -/

theorem mem_regexMatches_of_scan {re : Regex} {s : Str} {m : Match}
    (h : Piece.matched m ∈ scanFrom re none s) : m ∈ regexMatches re s := by
  unfold regexMatches
  exact List.mem_filterMap.mpr ⟨Piece.matched m, h, rfl⟩

/-- The scan by a pattern `l₁(a*?)l₂` of a text tiled by blocks `B`: capture group 1
of every match is tiled, and the output is tiled by `B'` when the replacement of
every match is. `Q` is what is known of the matches of the scan. -/
theorem scan_tiledBy (B B' : Str → Prop) (l₁ : Str) (a : Atom) (l₂ fmt : Str)
    (Q : Match → Prop)
    (hne : ∀ b, B b → b ≠ [])
    (hstart : ∀ b, B b → ∀ u x v rest, b = u ++ x :: v → ¬ l₁ <+: x :: v ++ rest)
    (hl₁ : ∀ c ∈ l₁, ∀ b, B b → b.head? ≠ some c)
    (hsplit : ∀ g rest, TiledBy B (g ++ (l₂ ++ rest)) → TiledBy B g ∧ TiledBy B rest)
    (hBB' : ∀ b, B b → B' b)
    (hfmt : ∀ m : Match, TiledBy B m.group1 → (∀ c ∈ m.group1, a.accepts c = true) → Q m →
      TiledBy B' (formatReplacement m fmt))
    (s : Str) :
    ∀ p, TiledBy B s →
      (∀ m, Piece.matched m ∈ scanFrom (delimited l₁ a l₂) p s → Q m) →
      (∀ m, Piece.matched m ∈ scanFrom (delimited l₁ a l₂) p s → TiledBy B m.group1) ∧
      TiledBy B' (renderAll fmt (scanFrom (delimited l₁ a l₂) p s)) := by
  obtain ⟨n, hn⟩ : ∃ n, s.length = n := ⟨_, rfl⟩
  induction n using Nat.strong_induction_on generalizing s with
  | _ n ih =>
    intro p h hQ
    cases h with
    | nil =>
      rw [scanFrom_nil]
      exact ⟨fun m hm => by simp at hm, TiledBy.nil⟩
    | char c t hc ht =>
      cases hm : nonEmptyMatch (delimited l₁ a l₂) p (c :: t) with
      | none =>
        rw [scanFrom_pass _ p c t hm] at hQ ⊢
        obtain ⟨h1, h2⟩ := ih _ (by rw [← hn]; simp) t rfl (some c) ht
          (fun m hmem => hQ m (List.mem_cons_of_mem _ hmem))
        refine ⟨?_, ?_⟩
        · intro m hmem
          rcases List.mem_cons.mp hmem with h' | h'
          · cases h'
          · exact h1 m h'
        · rw [renderAll_cons]
          exact TiledBy.char c _ hc h2
      | some m =>
        obtain ⟨hmatch, hw, hs⟩ := nonEmptyMatch_some hm
        obtain ⟨htext, hacc⟩ := delimited_match_text l₁ a l₂ p _ m hmatch
        have htiled : TiledBy B (l₁ ++ (m.group1 ++ (l₂ ++ m.suffix))) := by
          have := TiledBy.char c t hc ht
          rwa [htext] at this
        obtain ⟨hg, hsuffix⟩ := hsplit _ _ (TiledBy.drop_literals hne l₁ hl₁ _ htiled)
        have hlen : m.suffix.length < n := by
          have : 0 < m.whole.length := List.length_pos.mpr hw
          rw [← hn, hs, List.length_append]; omega
        rw [scanFrom_found _ p _ m hm] at hQ ⊢
        obtain ⟨h1, h2⟩ := ih _ hlen m.suffix rfl (lastOr none m.whole) hsuffix
          (fun m' hmem => hQ m' (List.mem_cons_of_mem _ hmem))
        refine ⟨?_, ?_⟩
        · intro m' hmem
          rcases List.mem_cons.mp hmem with h' | h'
          · cases h'; exact hg
          · exact h1 m' h'
        · rw [renderAll_cons]
          exact (hfmt m hg hacc (hQ m (List.mem_cons_self _ _))).glue h2
    | block b t hb ht =>
      have hskip : ∀ u x v, b = u ++ x :: v →
          matchHere (delimited l₁ a l₂) (lastOr p u) (x :: v ++ t) = none :=
        fun u x v huv => delimited_none l₁ a _ _ _ (hstart b hb u x v t huv)
      have hlen : t.length < n := by
        have : 0 < b.length := List.length_pos.mpr (hne b hb)
        rw [← hn, List.length_append]; omega
      rw [scanFrom_skip _ b t p hskip] at hQ ⊢
      obtain ⟨h1, h2⟩ := ih _ hlen t rfl _ ht
        (fun m hmem => hQ m (List.mem_append_right _ hmem))
      refine ⟨?_, ?_⟩
      · intro m hmem
        rcases List.mem_append.mp hmem with h' | h'
        · simp at h'
        · exact h1 m h'
      · rw [renderAll_append, renderAll_copied]
        exact TiledBy.block b _ (hBB' b hb) h2
/-! ## Occurrences of a pair of characters -/

theorem no_occurrence_of_pair_chain (c d : Char) (l : Str)
    (h : List.Chain' (NotPair c d) l) : ¬ [c, d] <:+: l := by
  rintro ⟨u, v, rfl⟩
  have h1 := (List.chain'_append.mp h).1
  have h2 := (List.chain'_append.mp h1).2.1
  exact (List.chain'_cons.mp h2).1 ⟨rfl, rfl⟩

theorem pair_chain_of_no_occurrence (c d : Char) (l : Str) (h : ¬ [c, d] <:+: l) :
    List.Chain' (NotPair c d) l := by
  induction l with
  | nil => exact List.chain'_nil
  | cons x t ih =>
    apply List.Chain'.cons' (ih (fun h' => h (h'.trans (List.suffix_cons x t).isInfix)))
    intro y hy hpair
    cases t with
    | nil => simp at hy
    | cons z t' =>
      simp only [List.head?_cons, Option.mem_def, Option.some.injEq] at hy
      apply h
      rw [hpair.1, hy, hpair.2]
      exact (List.prefix_append [c, d] t').isInfix

/-- A pair of characters that occurs in none of three texts does not occur in
their concatenation when the first does not end with the first character of the
pair and the last does not start with its second character. -/
theorem no_pair_in_span (c d : Char) (A w C : Str) (hA : ¬ [c, d] <:+: A)
    (hw : ¬ [c, d] <:+: w) (hC : ¬ [c, d] <:+: C) (hlast : A.getLast? ≠ some c)
    (hhead : C.head? ≠ some d) : ¬ [c, d] <:+: A ++ (w ++ C) := by
  apply no_occurrence_of_pair_chain
  refine List.chain'_append.mpr ⟨pair_chain_of_no_occurrence c d A hA, ?_, ?_⟩
  · refine List.chain'_append.mpr ⟨pair_chain_of_no_occurrence c d w hw,
      pair_chain_of_no_occurrence c d C hC, ?_⟩
    intro x _ y hy hpair
    apply hhead
    rw [← hpair.2]
    exact hy
  · intro x hx y _ hpair
    apply hlast
    rw [← hpair.1]
    exact hx

theorem no_start_of_pair (c d : Char) (b : Str) (hb : ¬ [c, d] <:+: b)
    (hend : b.getLast? ≠ some c) :
    ∀ u x v rest, b = u ++ x :: v → ¬ [c, d] <+: x :: v ++ rest := by
  intro u x v rest huv hpre
  rw [List.cons_append, List.cons_prefix_cons] at hpre
  obtain ⟨hx, hpre⟩ := hpre
  cases v with
  | nil =>
    apply hend
    rw [huv, ← hx]
    simp
  | cons y v' =>
    rw [List.cons_append, List.cons_prefix_cons] at hpre
    apply hb
    rw [huv, ← hx, hpre.1]
    exact ⟨u, v', by simp⟩

theorem no_pair_of_not_mem (c d : Char) (b : Str) (h : d ∉ b) : ¬ [c, d] <:+: b := by
  rintro ⟨u, v, rfl⟩
  apply h
  simp
/-! ## The blocks of the string stage and of the single-line pass -/

theorem keywordUnits_facts : ∀ b ∈ keywordUnits,
    b ≠ [] ∧ b.head? = some '<' ∧ b.getLast? = some '>' ∧ '\n' ∉ b ∧ '*' ∉ b ∧ '"' ∉ b ∧
    ¬ ['/', '/'] <:+: b := by
  decide

theorem stringSpan_shape {P : Str → Prop} {b : Str} (h : StringSpan P b) :
    b ≠ [] ∧ b.head? = some '<' ∧ b.getLast? = some '>' ∧ '\n' ∉ b := by
  obtain ⟨g, rfl, _, hnl, _⟩ := h
  refine ⟨by simp, rfl, ?_, ?_⟩
  · have e : "<span style='color: green;'>\"".toList ++ (g ++ "\"</span>".toList) =
        ("<span style='color: green;'>\"".toList ++ (g ++ "\"</span".toList)) ++ ['>'] := by
      simp
    rw [e, List.getLast?_concat]
  · intro hmem
    rcases List.mem_append.mp hmem with h1 | h1
    · exact absurd h1 (by decide)
    · rcases List.mem_append.mp h1 with h2 | h2
      · exact hnl h2
      · exact absurd h2 (by decide)

theorem stringSpan_no_pair {P : Str → Prop} {b : Str} (c d : Char) (h : StringSpan P b)
    (hg : ∀ g, P g → ¬ [c, d] <:+: g)
    (hopen : ¬ [c, d] <:+: "<span style='color: green;'>\"".toList)
    (hclose : ¬ [c, d] <:+: "\"</span>".toList) (hc : c ≠ '"') (hd : d ≠ '"') :
    ¬ [c, d] <:+: b := by
  obtain ⟨g, rfl, _, _, hP⟩ := h
  refine no_pair_in_span c d _ g _ hopen (hg g hP) hclose ?_ ?_
  · intro hl
    have : ("<span style='color: green;'>\"".toList).getLast? = some '"' := rfl
    rw [this] at hl
    exact hc (Option.some.inj hl).symm
  · intro hh
    have : ("\"</span>".toList).head? = some '"' := rfl
    rw [this] at hh
    exact hd (Option.some.inj hh).symm

theorem tiledBy_units_neutral {g : Str} (h : TiledBy (fun u => u ∈ keywordUnits) g) :
    ∀ (d : Nat) (X : Str), spansNested d (g ++ X) = spansNested d X :=
  spansNested_tiledBy (fun b hb => spansNested_units b hb) h

theorem stringSpan_neutral {P : Str → Prop} {b : Str} (h : StringSpan P b) :
    ∀ (d : Nat) (X : Str), spansNested d (b ++ X) = spansNested d X := by
  obtain ⟨g, rfl, hg, _, _⟩ := h
  intro d X
  have e : "<span style='color: green;'>\"".toList ++ (g ++ "\"</span>".toList) ++ X =
      "<span ".toList ++ ("style='color: green;'>\"".toList ++
        (g ++ ("\"".toList ++ ("</span>".toList ++ X)))) := by
    simp
  rw [e, spansNested_open, spansNested_skip _ _ _ (by decide), tiledBy_units_neutral hg,
    spansNested_skip _ _ _ (by decide), spansNested_close]

theorem stringTiles_shape {P : Str → Prop} {b : Str} (h : StringTiles P b) :
    b ≠ [] ∧ b.head? = some '<' ∧ b.getLast? = some '>' ∧ '\n' ∉ b := by
  rcases h with h | h
  · obtain ⟨h1, h2, h3, h4, _⟩ := keywordUnits_facts b h
    exact ⟨h1, h2, h3, h4⟩
  · exact stringSpan_shape h

theorem stringTiles_neutral {P : Str → Prop} {b : Str} (h : StringTiles P b) :
    ∀ (d : Nat) (X : Str), spansNested d (b ++ X) = spansNested d X := by
  rcases h with h | h
  · exact spansNested_units b h
  · exact stringSpan_neutral h

theorem stringTiles_no_slashes {P : Str → Prop} (hP : ∀ g, P g → ¬ ['/', '/'] <:+: g) {b : Str}
    (h : StringTiles P b) : ¬ ['/', '/'] <:+: b := by
  rcases h with h | h
  · exact (keywordUnits_facts b h).2.2.2.2.2.2
  · exact stringSpan_no_pair '/' '/' h hP (by decide) (by decide) (by decide) (by decide)

theorem stringTiles_no_open {P : Str → Prop} (hP : ∀ g, P g → ¬ ['/', '*'] <:+: g) {b : Str}
    (h : StringTiles P b) : ¬ ['/', '*'] <:+: b := by
  rcases h with h | h
  · exact no_pair_of_not_mem '/' '*' b (keywordUnits_facts b h).2.2.2.2.1
  · exact stringSpan_no_pair '/' '*' h hP (by decide) (by decide) (by decide) (by decide)

theorem stringTiles_no_close {P : Str → Prop} (hP : ∀ g, P g → ¬ ['*', '/'] <:+: g) {b : Str}
    (h : StringTiles P b) : ¬ ['*', '/'] <:+: b := by
  rcases h with h | h
  · rintro ⟨u, v, rfl⟩
    exact (keywordUnits_facts _ h).2.2.2.2.1 (by simp)
  · exact stringSpan_no_pair '*' '/' h hP (by decide) (by decide) (by decide) (by decide)

theorem tiledBy_stringTiles_neutral {P : Str → Prop} {g : Str}
    (h : TiledBy (StringTiles P) g) :
    ∀ (d : Nat) (X : Str), spansNested d (g ++ X) = spansNested d X :=
  spansNested_tiledBy (fun _ hb => stringTiles_neutral hb) h

theorem lineSpan_shape {P Pw : Str → Prop} {b : Str} (h : LineSpan P Pw b) :
    b ≠ [] ∧ b.head? = some '<' ∧ b.getLast? = some '>' := by
  obtain ⟨g, rfl, _, _⟩ := h
  refine ⟨by simp, rfl, ?_⟩
  have e : "<span style='color: gray;'>".toList ++ (("//".toList ++ g) ++ "</span>".toList) =
      ("<span style='color: gray;'>".toList ++ (("//".toList ++ g) ++ "</span".toList)) ++
        ['>'] := by
    simp
  rw [e, List.getLast?_concat]

theorem lineSpan_no_pair {P Pw : Str → Prop} {b : Str} (c d : Char) (h : LineSpan P Pw b)
    (hw : ∀ w, Pw w → ¬ [c, d] <:+: w)
    (hopen : ¬ [c, d] <:+: "<span style='color: gray;'>".toList)
    (hclose : ¬ [c, d] <:+: "</span>".toList) (hc : c ≠ '>') (hd : d ≠ '<') :
    ¬ [c, d] <:+: b := by
  obtain ⟨g, rfl, _, hPw⟩ := h
  refine no_pair_in_span c d _ _ _ hopen (hw _ hPw) hclose ?_ ?_
  · intro hl
    have : ("<span style='color: gray;'>".toList).getLast? = some '>' := rfl
    rw [this] at hl
    exact hc (Option.some.inj hl).symm
  · intro hh
    have : ("</span>".toList).head? = some '<' := rfl
    rw [this] at hh
    exact hd (Option.some.inj hh).symm

theorem lineSpan_neutral {P Pw : Str → Prop} {b : Str} (h : LineSpan P Pw b) :
    ∀ (d : Nat) (X : Str), spansNested d (b ++ X) = spansNested d X := by
  obtain ⟨g, rfl, hg, _⟩ := h
  intro d X
  have e : "<span style='color: gray;'>".toList ++ (("//".toList ++ g) ++ "</span>".toList) ++ X =
      "<span ".toList ++ ("style='color: gray;'>//".toList ++
        (g ++ ("</span>".toList ++ X))) := by
    simp
  rw [e, spansNested_open, spansNested_skip _ _ _ (by decide), tiledBy_stringTiles_neutral hg,
    spansNested_close]

theorem commentTiles_shape {P Pw : Str → Prop} {b : Str} (h : CommentTiles P Pw b) :
    b ≠ [] ∧ b.head? = some '<' ∧ b.getLast? = some '>' := by
  rcases h with h | h
  · obtain ⟨h1, h2, h3, _⟩ := stringTiles_shape h
    exact ⟨h1, h2, h3⟩
  · exact lineSpan_shape h

theorem commentTiles_neutral {P Pw : Str → Prop} {b : Str} (h : CommentTiles P Pw b) :
    ∀ (d : Nat) (X : Str), spansNested d (b ++ X) = spansNested d X := by
  rcases h with h | h
  · exact stringTiles_neutral h
  · exact lineSpan_neutral h

theorem commentTiles_no_open {P Pw : Str → Prop} (hP : ∀ g, P g → ¬ ['/', '*'] <:+: g)
    (hPw : ∀ w, Pw w → ¬ ['/', '*'] <:+: w) {b : Str} (h : CommentTiles P Pw b) :
    ¬ ['/', '*'] <:+: b := by
  rcases h with h | h
  · exact stringTiles_no_open hP h
  · exact lineSpan_no_pair '/' '*' h hPw (by decide) (by decide) (by decide) (by decide)

theorem commentTiles_no_close {P Pw : Str → Prop} (hP : ∀ g, P g → ¬ ['*', '/'] <:+: g)
    (hPw : ∀ w, Pw w → ¬ ['*', '/'] <:+: w) {b : Str} (h : CommentTiles P Pw b) :
    ¬ ['*', '/'] <:+: b := by
  rcases h with h | h
  · exact stringTiles_no_close hP h
  · exact lineSpan_no_pair '*' '/' h hPw (by decide) (by decide) (by decide) (by decide)

theorem tiledBy_commentTiles_neutral {P Pw : Str → Prop} {g : Str}
    (h : TiledBy (CommentTiles P Pw) g) :
    ∀ (d : Nat) (X : Str), spansNested d (g ++ X) = spansNested d X :=
  spansNested_tiledBy (fun _ hb => commentTiles_neutral hb) h
/-! ## The spans of the comment stage around spans written earlier -/

theorem dot_rejects_newline (g : Str) (h : ∀ c ∈ g, Atom.dot.accepts c = true) : '\n' ∉ g := by
  intro hmem
  have := h _ hmem
  simp [Atom.accepts] at this

/-- The output of the string stage on a text tiled by wrapper tags and keyword
spans is tiled by these and by whole string spans. -/
theorem stringStage_stringTiles (P : Str → Prop) (h : Str) (ht : Tiled keywordUnits h)
    (hP : ∀ m ∈ regexMatches stringRegex h, P m.group1) :
    TiledBy (StringTiles P) (stringStage h) := by
  unfold stringStage
  rw [regex_replace_eq]
  have hscan := scan_tiledBy (fun u => u ∈ keywordUnits) (StringTiles P) ['"'] Atom.dot ['"']
    stringFormat (fun m => P m.group1)
    (fun b hb => (keywordUnits_facts b hb).1)
    (fun b hb u x v rest huv =>
      no_start_of_not_mem '"' b rest (keywordUnits_facts b hb).2.2.2.2.2.1 [] u x v huv)
    (fun c hc b hb hhead => by
      rw [(keywordUnits_facts b hb).2.1] at hhead
      rw [List.mem_singleton] at hc
      rw [hc] at hhead
      exact absurd hhead (by decide))
    (fun g rest hg =>
      TiledBy.split_char '"' (fun b hb => (keywordUnits_facts b hb).2.2.2.2.2.1) g rest hg)
    (fun b hb => Or.inl hb)
    (fun m hg hacc hQ => by
      rw [stringFormat_expand]
      exact TiledBy.of_one _
        (Or.inr ⟨m.group1, by simp, hg, dot_rejects_newline _ hacc, hQ⟩))
    h none (TiledBy.of_tiled ht)
    (fun m hm => hP m (mem_regexMatches_of_scan (by rw [stringRegex_eq]; exact hm)))
  rw [stringRegex_eq]
  exact hscan.2

/-- The single-line pass on the output of the string stage, when no string span
holds `//`: capture group 1 of every match is tiled by whole blocks, and the
output is tiled by these and by whole single-line comment spans. -/
theorem singleLine_over_stringTiles (P Pw : Str → Prop)
    (hP : ∀ g, P g → ¬ ['/', '/'] <:+: g) (h : Str) (ht : TiledBy (StringTiles P) h)
    (hPw : ∀ m ∈ regexMatches singleLineCommentRegex h, Pw ("//".toList ++ m.group1)) :
    (∀ m ∈ regexMatches singleLineCommentRegex h, TiledBy (StringTiles P) m.group1) ∧
    TiledBy (CommentTiles P Pw) (singleLinePass h) := by
  have hscan := scan_tiledBy (StringTiles P) (CommentTiles P Pw) ['/', '/'] Atom.dot ['\n']
    singleLineCommentFormat (fun m => Pw ("//".toList ++ m.group1))
    (fun b hb => (stringTiles_shape hb).1)
    (fun b hb => no_start_of_pair '/' '/' b (stringTiles_no_slashes hP hb) (by
      rw [(stringTiles_shape hb).2.2.1]; decide))
    (fun c hc b hb hhead => by
      rw [(stringTiles_shape hb).2.1] at hhead
      have hc' : c = '/' := by simpa using hc
      rw [hc'] at hhead
      exact absurd hhead (by decide))
    (fun g rest hg =>
      TiledBy.split_char '\n' (fun b hb => (stringTiles_shape hb).2.2.2) g rest hg)
    (fun b hb => Or.inl hb)
    (fun m hg _ hQ => by
      rw [singleLineCommentFormat_expand]
      have e : "<span style='color: gray;'>//".toList ++ m.group1 ++ "</span>\n".toList =
          ("<span style='color: gray;'>".toList ++
            (("//".toList ++ m.group1) ++ "</span>".toList)) ++ ['\n'] := by
        simp
      rw [e]
      exact (TiledBy.of_one _ (Or.inr ⟨m.group1, rfl, hg, hQ⟩)).glue
        (TiledBy.of_characters ['\n'] (by decide)))
    h none ht
    (fun m hm => hPw m (mem_regexMatches_of_scan (by
      rw [singleLineCommentRegex_eq]; exact hm)))
  refine ⟨?_, ?_⟩
  · intro m hm
    rw [singleLineCommentRegex_eq] at hm
    exact hscan.1 m (mem_regexMatches hm)
  · unfold singleLinePass
    rw [regex_replace_eq, singleLineCommentRegex_eq]
    exact hscan.2

/-- The block pass on the output of the single-line pass, when no string span and
no single-line comment span holds `/*` or `*/`: capture group 1 of every match is
tiled by whole blocks. -/
theorem block_over_commentTiles (P Pw : Str → Prop)
    (hP₁ : ∀ g, P g → ¬ ['/', '*'] <:+: g) (hP₂ : ∀ g, P g → ¬ ['*', '/'] <:+: g)
    (hPw₁ : ∀ w, Pw w → ¬ ['/', '*'] <:+: w) (hPw₂ : ∀ w, Pw w → ¬ ['*', '/'] <:+: w)
    (h : Str) (ht : TiledBy (CommentTiles P Pw) h) :
    ∀ m ∈ regexMatches multiLineCommentRegex h, TiledBy (CommentTiles P Pw) m.group1 := by
  have hscan := scan_tiledBy (CommentTiles P Pw) (fun _ => True) ['/', '*']
    Atom.spaceOrNonSpace ['*', '/'] multiLineCommentFormat (fun _ => True)
    (fun b hb => (commentTiles_shape hb).1)
    (fun b hb => no_start_of_pair '/' '*' b (commentTiles_no_open hP₁ hPw₁ hb) (by
      rw [(commentTiles_shape hb).2.2]; decide))
    (fun c hc b hb hhead => by
      rw [(commentTiles_shape hb).2.1] at hhead
      have hc' : c = '/' ∨ c = '*' := by simpa using hc
      rcases hc' with hc' | hc' <;> rw [hc'] at hhead <;> exact absurd hhead (by decide))
    (fun g rest hg =>
      TiledBy.split_pair '*' '/' (fun b hb => (commentTiles_shape hb).1)
        (fun b hb => commentTiles_no_close hP₂ hPw₂ hb)
        (fun b hb => by rw [(commentTiles_shape hb).2.2]; decide)
        (fun b hb => by rw [(commentTiles_shape hb).2.1]; decide) g rest hg)
    (fun _ _ => trivial)
    (fun m _ _ _ => TiledBy.anything _)
    h none ht (fun _ _ => trivial)
  intro m hm
  rw [multiLineCommentRegex_eq] at hm
  exact hscan.1 m (mem_regexMatches hm)

theorem not_occurs_in_content (pat g w l r : Str) (hw : w = l ++ g ++ r) (h : ¬ pat <:+: w) :
    ¬ pat <:+: g := by
  intro hg
  apply h
  rw [hw]
  exact hg.trans ⟨l, r, rfl⟩

theorem comment_spans_nested_around_spans (src : Str) :
    ((∀ w ∈ stringWrapped (beforeStrings src), ¬ "//".toList <:+: w) →
      ∀ w ∈ singleLineWrapped (beforeComments src), spansNested 0 w = true) ∧
    ((∀ w ∈ stringWrapped (beforeStrings src),
        ¬ "//".toList <:+: w ∧ ¬ "/*".toList <:+: w ∧ ¬ "*/".toList <:+: w) →
      (∀ w ∈ singleLineWrapped (beforeComments src),
        ¬ "/*".toList <:+: w ∧ ¬ "*/".toList <:+: w) →
      ∀ w ∈ blockWrapped (singleLinePass (beforeComments src)), spansNested 0 w = true) := by
  have hk : Tiled keywordUnits (beforeStrings src) := keywordStage_convert_tiled src
  have hbc : beforeComments src = stringStage (beforeStrings src) := rfl
  have hwrapped : ∀ m ∈ regexMatches stringRegex (beforeStrings src),
      "\"".toList ++ m.group1 ++ "\"".toList ∈ stringWrapped (beforeStrings src) :=
    fun m hm => List.mem_map.mpr ⟨m, hm, rfl⟩
  refine ⟨?_, ?_⟩
  · intro hstr w hw
    have ht := stringStage_stringTiles (fun g => ¬ ['/', '/'] <:+: g) _ hk
      (fun m hm => not_occurs_in_content _ m.group1 _ _ _ rfl (hstr _ (hwrapped m hm)))
    rw [hbc] at hw
    obtain ⟨m, hm, rfl⟩ := List.mem_map.mp hw
    have hg := (singleLine_over_stringTiles _ (fun _ => True) (fun _ hg => hg) _ ht
      (fun _ _ => trivial)).1 m hm
    have := tiledBy_stringTiles_neutral hg 0 []
    rw [List.append_nil] at this
    rw [spansNested_skip 0 "//".toList m.group1 (by decide), this]
    rfl
  · intro hstr hline w hw
    have ht := stringStage_stringTiles
      (fun g => ¬ ['/', '/'] <:+: g ∧ ¬ ['/', '*'] <:+: g ∧ ¬ ['*', '/'] <:+: g) _ hk
      (fun m hm =>
        ⟨not_occurs_in_content _ m.group1 _ _ _ rfl (hstr _ (hwrapped m hm)).1,
         not_occurs_in_content _ m.group1 _ _ _ rfl (hstr _ (hwrapped m hm)).2.1,
         not_occurs_in_content _ m.group1 _ _ _ rfl (hstr _ (hwrapped m hm)).2.2⟩)
    rw [hbc] at hw hline
    have ht' := (singleLine_over_stringTiles _
      (fun w => ¬ ['/', '*'] <:+: w ∧ ¬ ['*', '/'] <:+: w) (fun _ hg => hg.1) _ ht
      (fun m hm => hline _ (List.mem_map.mpr ⟨m, hm, rfl⟩))).2
    obtain ⟨m, hm, rfl⟩ := List.mem_map.mp hw
    have hg := block_over_commentTiles _ _ (fun _ hg => hg.2.1) (fun _ hg => hg.2.2)
      (fun _ hw => hw.1) (fun _ hw => hw.2) _ ht' m hm
    rw [List.append_assoc, spansNested_skip 0 "/*".toList _ (by decide),
      tiledBy_commentTiles_neutral hg 0 "*/".toList]
    rfl

set_option maxRecDepth 1000000 in
/-- Claim C1. The converter that `main` builds, applied to the source
`int x = "hi"; // set` followed by a line feed, returns the keyword span
around `int`, the string span around `"hi"` and the comment span around
`// set`, inside the `<pre><code>` wrapper, the line feed right after the
comment span; the stages act in the order escape, keywords, strings,
single-line comments, block comments. -/
theorem C1_pipeline_scenario :
    pipeline "int x = \"hi\"; // set\n".toList =
      ("<pre><code><span style='color: blue; font-weight: bold;'>int</span> x = " ++
       "<span style='color: green;'>\"hi\"</span>; " ++
       "<span style='color: gray;'>// set</span>\n</code></pre>").toList ∧
    ∀ code : Str, pipeline code =
      blockPass (singleLinePass (stringStage (keywordStage (BasicCodeToHTML.convert code)))) :=
  ⟨by decide, fun _ => rfl⟩

/-- Claim C2. `BasicCodeToHTML::convert` returns `<pre><code>`, then the images
of the characters of the source in order (`&lt;` for `<`, `&gt;` for `>`, the
character itself otherwise, `&` included), then `</code></pre>`. -/
theorem C2_convert_is_wrapped_image (s : Str) :
    BasicCodeToHTML.convert s =
      "<pre><code>".toList ++ (s.map charImage).flatten ++ "</code></pre>".toList ∧
    charImage '<' = "&lt;".toList ∧ charImage '>' = "&gt;".toList ∧
    charImage '&' = ['&'] ∧
    ∀ c : Char, c ≠ '<' → c ≠ '>' → charImage c = [c] := by
  refine ⟨convert_eq s, by decide, by decide, by decide, ?_⟩
  intro c h1 h2
  simp [charImage, h1, h2]

/-- Claim C3. The result of `BasicCodeToHTML::convert` is `<pre><code>`, a body and
`</code></pre>`, and the body holds neither `<` nor `>`. -/
theorem C3_convert_body_has_no_angle_bracket (s : Str) :
    ∃ body : Str,
      BasicCodeToHTML.convert s = "<pre><code>".toList ++ body ++ "</code></pre>".toList ∧
      '<' ∉ body ∧ '>' ∉ body :=
  ⟨(s.map charImage).flatten, convert_eq s,
    fun h => (image_no_angle s _ h).1 rfl, fun h => (image_no_angle s _ h).2 rfl⟩

/-- Claim C4, as stated, fails: the source `&lt;` is escaped to itself, and
unescaping the result gives `<`. -/
theorem C4_roundtrip_counterexample :
    unescapeEntities (stripWrapper (BasicCodeToHTML.convert "&lt;".toList)) ≠ "&lt;".toList := by
  decide

/-- Claim C4, amended. For a source with no occurrence of `&lt;` and none of
`&gt;`, stripping the wrapper from the result of `BasicCodeToHTML::convert` and
unescaping the two entities gives the source back. -/
theorem C4_roundtrip (s : Str)
    (hlt : ¬ "&lt;".toList <:+: s) (hgt : ¬ "&gt;".toList <:+: s) :
    unescapeEntities (stripWrapper (BasicCodeToHTML.convert s)) = s := by
  rw [convert_eq, strip_wrapped, unescape_image s hlt hgt]

theorem C4_roundtrip_witness :
    (¬ "&lt;".toList <:+: "a<b> &c;".toList) ∧ (¬ "&gt;".toList <:+: "a<b> &c;".toList) ∧
    unescapeEntities (stripWrapper (BasicCodeToHTML.convert "a<b> &c;".toList)) =
      "a<b> &c;".toList :=
  ⟨by decide, by decide, C4_roundtrip _ (by decide) (by decide)⟩

/-- Claim C5. The keyword loop of `KeywordHighlighter::convert` returns its input
with every maximal run of letters, digits and underscores that is one of the ten
keywords wrapped in the keyword span, and every other character unchanged: a
keyword next to a word character is part of a longer run and is not wrapped, and
no later keyword matches inside the markup written for an earlier one.
`integer` is returned unchanged and `int;` has its `int` wrapped. -/
theorem C5_keyword_stage (h : Str) :
    keywordStage h = wrapKeywordRuns keywords [] h ∧
    keywordStage "integer".toList = "integer".toList ∧
    keywordStage "int;".toList =
      "<span style='color: blue; font-weight: bold;'>int</span>;".toList :=
  ⟨keywordStage_eq h, by decide, by decide⟩

/-- Claim C6, as stated, fails: a quote is not paired with the next quote when a
line feed stands between them; the text of a quote, a line feed and a quote is
returned unchanged. -/
theorem C6_string_pair_counterexample :
    '"' ∉ "".toList ∧ '"' ∉ "\n".toList ∧
    stringStage ("".toList ++ "\"".toList ++ "\n".toList ++ "\"".toList ++ "".toList) ≠
      "".toList ++ "<span style='color: green;'>\"".toList ++ "\n".toList ++
        "\"</span>".toList ++ stringStage "".toList := by
  decide

/-- Claim C6, amended. When `a` and `t` hold no double quote and `t` holds neither a
line feed nor a carriage return, the string stage turns `a"t"b` into `a`, the
green span around `"t"`, and the string stage of `b`. -/
theorem C6_string_pair (a t b : Str) (ha : '"' ∉ a) (ht : '"' ∉ t)
    (hlf : '\n' ∉ t) (hcr : '\r' ∉ t) :
    stringStage (a ++ "\"".toList ++ t ++ "\"".toList ++ b) =
      a ++ "<span style='color: green;'>\"".toList ++ t ++ "\"</span>".toList ++
        stringStage b :=
  stringStage_pair a t b ha ht hlf hcr

theorem C6_string_pair_witness :
    ('"' ∉ "He said ".toList ∧ '"' ∉ "hi".toList ∧ '\n' ∉ "hi".toList ∧ '\r' ∉ "hi".toList) ∧
    stringStage ("He said ".toList ++ "\"".toList ++ "hi".toList ++ "\"".toList ++
        " and \"bye\"".toList) =
      "He said ".toList ++ "<span style='color: green;'>\"".toList ++ "hi".toList ++
        "\"</span>".toList ++ stringStage " and \"bye\"".toList ∧
    stringStage "He said \"hi\" and \"bye\"".toList =
      ("He said <span style='color: green;'>\"hi\"</span> and " ++
       "<span style='color: green;'>\"bye\"</span>").toList :=
  ⟨by decide,
   C6_string_pair _ _ _ (by decide) (by decide) (by decide) (by decide),
   by decide⟩

/-- Claim C7, as stated, fails: `//` is not wrapped when a carriage return stands
between it and the line feed; the text `//`, carriage return, line feed is
returned unchanged. -/
theorem C7_single_line_counterexample :
    '/' ∉ "".toList ∧ '\n' ∉ "\r".toList ∧
    singleLinePass ("".toList ++ "//".toList ++ "\r".toList ++ "\n".toList ++ "".toList) ≠
      "".toList ++ "<span style='color: gray;'>//".toList ++ "\r".toList ++
        "</span>".toList ++ "\n".toList ++ singleLinePass "".toList := by
  decide

/-- Claim C7, amended. When `p` holds no `/` and `t` holds neither a line feed nor
a carriage return, the single-line pass turns `p//t`, line feed, `s` into `p`, the
gray span around `//t`, the line feed, and the single-line pass of `s`. -/
theorem C7_single_line (p t s : Str) (hp : '/' ∉ p) (hlf : '\n' ∉ t) (hcr : '\r' ∉ t) :
    singleLinePass (p ++ "//".toList ++ t ++ "\n".toList ++ s) =
      p ++ "<span style='color: gray;'>//".toList ++ t ++ "</span>".toList ++ "\n".toList ++
        singleLinePass s :=
  singleLinePass_comment p t s hp hlf hcr

theorem C7_single_line_witness :
    ('/' ∉ "x; ".toList ∧ '\n' ∉ " done".toList ∧ '\r' ∉ " done".toList) ∧
    singleLinePass ("x; ".toList ++ "//".toList ++ " done".toList ++ "\n".toList ++
        "".toList) =
      "x; ".toList ++ "<span style='color: gray;'>//".toList ++ " done".toList ++
        "</span>".toList ++ "\n".toList ++ singleLinePass "".toList ∧
    singleLinePass "x; // done\n".toList =
      "x; <span style='color: gray;'>// done</span>\n".toList :=
  ⟨by decide, C7_single_line _ _ _ (by decide) (by decide) (by decide), by decide⟩

/-- Claim C8. When `p` holds no `/*` and `t` holds no `*/`, the block pass turns
`p/*t*/s` into `p`, the gray span around `/*t*/`, and the block pass of `s`; `t`
may hold line feeds and markup. -/
theorem C8_block_comment (p t s : Str) (hp : ¬ "/*".toList <:+: p)
    (ht : ¬ "*/".toList <:+: t) :
    blockPass (p ++ "/*".toList ++ t ++ "*/".toList ++ s) =
      p ++ "<span style='color: gray;'>/*".toList ++ t ++ "*/</span>".toList ++
        blockPass s :=
  blockPass_comment p t s hp ht

theorem C8_block_comment_witness :
    (¬ "/*".toList <:+: "".toList ∧ ¬ "*/".toList <:+: "a\nb".toList) ∧
    blockPass ("".toList ++ "/*".toList ++ "a\nb".toList ++ "*/".toList ++ "".toList) =
      "".toList ++ "<span style='color: gray;'>/*".toList ++ "a\nb".toList ++
        "*/</span>".toList ++ blockPass "".toList ∧
    blockPass "/*a\nb*/".toList = "<span style='color: gray;'>/*a\nb*/</span>".toList :=
  ⟨by decide, C8_block_comment _ _ _ (by decide) (by decide), by decide⟩

set_option maxRecDepth 1000000 in
/-- Claim C9, as stated, fails. For the source `"//"` followed by a line feed, the
single-line match starts inside the string span and the text it wraps holds the
`</span>` of that span. For the source `// /*`, line feed, `*/`, the block match
starts inside the single-line span and the text it wraps holds the `</span>` of
that span. -/
theorem C9_comment_spans_counterexample :
    (∃ w ∈ singleLineWrapped (beforeComments "\"//\"\n".toList), spansNested 0 w = false) ∧
    (∃ w ∈ blockWrapped (singleLinePass (beforeComments "// /*\n*/".toList)),
      spansNested 0 w = false) := by
  decide

/-- Claim C9, amended. When no text that the string stage wraps holds `//`, the span
tags inside the text that each single-line match wraps nest properly: the match
takes in whole keyword spans and whole string spans. When, moreover, no text that
the string stage wraps and no text that the single-line pass wraps holds `/*` or
`*/`, the span tags inside the text that each block match wraps nest properly too. -/
theorem C9_comment_spans_nested (src : Str)
    (hstr : ∀ w ∈ stringWrapped (beforeStrings src), ¬ "//".toList <:+: w) :
    (∀ w ∈ singleLineWrapped (beforeComments src), spansNested 0 w = true) ∧
    ((∀ w ∈ stringWrapped (beforeStrings src),
        ¬ "/*".toList <:+: w ∧ ¬ "*/".toList <:+: w) →
      (∀ w ∈ singleLineWrapped (beforeComments src),
        ¬ "/*".toList <:+: w ∧ ¬ "*/".toList <:+: w) →
      ∀ w ∈ blockWrapped (singleLinePass (beforeComments src)), spansNested 0 w = true) :=
  ⟨(comment_spans_nested_around_spans src).1 hstr,
   fun hblock hline => (comment_spans_nested_around_spans src).2
    (fun w hw => ⟨hstr w hw, hblock w hw⟩) hline⟩

set_option maxRecDepth 1000000 in
theorem C9_comment_spans_nested_witness :
    (∀ w ∈ stringWrapped (beforeStrings "/* \"if\" */ x; // \"hi\"\n".toList),
      ¬ "//".toList <:+: w) ∧
    (∀ w ∈ stringWrapped (beforeStrings "/* \"if\" */ x; // \"hi\"\n".toList),
      ¬ "/*".toList <:+: w ∧ ¬ "*/".toList <:+: w) ∧
    (∀ w ∈ singleLineWrapped (beforeComments "/* \"if\" */ x; // \"hi\"\n".toList),
      ¬ "/*".toList <:+: w ∧ ¬ "*/".toList <:+: w) ∧
    singleLineWrapped (beforeComments "/* \"if\" */ x; // \"hi\"\n".toList) =
      ["// <span style='color: green;'>\"hi\"</span>".toList] ∧
    blockWrapped (singleLinePass (beforeComments "/* \"if\" */ x; // \"hi\"\n".toList)) =
      [("/* <span style='color: green;'>\"" ++
        "<span style='color: blue; font-weight: bold;'>if</span>\"</span> */").toList] ∧
    (∀ w ∈ singleLineWrapped (beforeComments "/* \"if\" */ x; // \"hi\"\n".toList),
      spansNested 0 w = true) ∧
    (∀ w ∈ blockWrapped (singleLinePass (beforeComments "/* \"if\" */ x; // \"hi\"\n".toList)),
      spansNested 0 w = true) :=
  ⟨by decide, by decide, by decide, by decide, by decide,
   (C9_comment_spans_nested _ (by decide)).1,
   (C9_comment_spans_nested _ (by decide)).2 (by decide) (by decide)⟩

/-- Claim C10. The output of the converter that `main` builds is a concatenation of
pieces, each one of the eight tags or one character other than `<` and `>`. -/
theorem C10_output_is_tags_and_plain_characters (s : Str) :
    ∃ pieces : List Str, pieces.flatten = pipeline s ∧ ∀ p ∈ pieces, IsPiece p :=
  (pipeline_tiled s).pieces

/-- Claim C11. A text with no occurrence of `*/` and none of `//`, such as one with
an unterminated `/*`, is returned unchanged by the two replacements of
`CommentHighlighter::convert`. -/
theorem C11_comment_stage_unchanged (h : Str) (hblock : ¬ "*/".toList <:+: h)
    (hline : ¬ "//".toList <:+: h) : commentStage h = h :=
  commentStage_id h hblock hline

theorem C11_comment_stage_unchanged_witness :
    (¬ "*/".toList <:+: "a /* b\nc".toList ∧ ¬ "//".toList <:+: "a /* b\nc".toList) ∧
    commentStage "a /* b\nc".toList = "a /* b\nc".toList :=
  ⟨by decide, C11_comment_stage_unchanged _ (by decide) (by decide)⟩

/-- Claim C12. A text with at most one double quote is returned unchanged by the
replacement of `StringLiteralHighlighter::convert`. -/
theorem C12_string_stage_unchanged (h : Str) (hq : h.count '"' ≤ 1) : stringStage h = h :=
  stringStage_id_of_one_quote h hq

theorem C12_string_stage_unchanged_witness :
    ("say \"hi".toList.count '"' ≤ 1) ∧ stringStage "say \"hi".toList = "say \"hi".toList :=
  ⟨by decide, C12_string_stage_unchanged _ (by decide)⟩

/-- Claim C13. The output of the converter that `main` builds is strictly longer than
its input, so applying the converter to its own output never gives that output
back. -/
theorem C13_pipeline_not_idempotent (s : Str) :
    pipeline (pipeline s) ≠ pipeline s ∧ s.length < (pipeline s).length :=
  ⟨pipeline_not_fixed (pipeline s), Nat.lt_of_lt_of_le (by omega) (pipeline_length s)⟩

set_option maxRecDepth 1000000 in
/-- Claim C14. For each of the ten keywords, the converter that `main` builds turns
the keyword between double quotes into the keyword span inside the string span,
inside the wrapper. -/
theorem C14_keyword_inside_string : ∀ k ∈ keywords,
    pipeline ("\"".toList ++ k ++ "\"".toList) =
      ("<pre><code><span style='color: green;'>\"" ++
        "<span style='color: blue; font-weight: bold;'>").toList ++ k ++
        "</span>\"</span></code></pre>".toList := by
  decide

theorem C14_keyword_inside_string_witness :
    "int".toList ∈ keywords ∧
    pipeline ("\"".toList ++ "int".toList ++ "\"".toList) =
      ("<pre><code><span style='color: green;'>\"" ++
        "<span style='color: blue; font-weight: bold;'>").toList ++ "int".toList ++
        "</span>\"</span></code></pre>".toList :=
  ⟨by decide, C14_keyword_inside_string _ (by decide)⟩

/-- Claim C15. The span tags of the output of the converter that `main` builds are
balanced: read left to right, a `</span>` never comes with no span open, and at
the end no span is open, so that `</span>` and `<span ` start equally often. -/
theorem C15_output_spans_balanced (s : Str) :
    spansNested 0 (pipeline s) = true ∧
    countStarts "</span>".toList (pipeline s) = countStarts "<span ".toList (pipeline s) := by
  have h := pipeline_balanced s
  refine ⟨h, ?_⟩
  have := spansNested_counts (pipeline s) 0 h
  omega

/-- Claim C16. When `a` and `t` hold no double quote and `t` holds a line feed or a
carriage return, the string stage leaves the quote in front of `t` unwrapped and
goes on from `t`: `a"t"b` becomes `a"` followed by the string stage of `t"b`. -/
theorem C16_quote_not_paired_across_lines (a t b : Str) (ha : '"' ∉ a) (ht : '"' ∉ t)
    (hline : '\n' ∈ t ∨ '\r' ∈ t) :
    stringStage (a ++ "\"".toList ++ t ++ "\"".toList ++ b) =
      a ++ "\"".toList ++ stringStage (t ++ "\"".toList ++ b) :=
  stringStage_across_line a t b ha ht hline

set_option maxRecDepth 1000000 in
theorem C16_quote_not_paired_across_lines_witness :
    ('"' ∉ "".toList ∧ '"' ∉ "a\n".toList ∧ ('\n' ∈ "a\n".toList ∨ '\r' ∈ "a\n".toList)) ∧
    stringStage ("".toList ++ "\"".toList ++ "a\n".toList ++ "\"".toList ++ "b\"".toList) =
      "".toList ++ "\"".toList ++ stringStage ("a\n".toList ++ "\"".toList ++ "b\"".toList) ∧
    stringStage "\"a\n\"b\"".toList = "\"a\n<span style='color: green;'>\"b\"</span>".toList :=
  ⟨by decide, C16_quote_not_paired_across_lines _ _ _ (by decide) (by decide) (by decide),
   by decide⟩

set_option maxRecDepth 1000000 in
/-- Claim C17. A text with no line feed is returned unchanged by the single-line
pass, so a `//` comment that no line feed follows is not wrapped; the converter
that `main` builds turns `x // done` into `<pre><code>x // done</code></pre>`. -/
theorem C17_comment_without_newline (h : Str) (hno : '\n' ∉ h) :
    singleLinePass h = h ∧
    pipeline "x // done".toList = "<pre><code>x // done</code></pre>".toList :=
  ⟨singleLinePass_id_of_no_newline h hno, by decide⟩

theorem C17_comment_without_newline_witness :
    '\n' ∉ "x // done".toList ∧
    (singleLinePass "x // done".toList = "x // done".toList ∧
      pipeline "x // done".toList = "<pre><code>x // done</code></pre>".toList) :=
  ⟨by decide, C17_comment_without_newline _ (by decide)⟩

end CodeToHTML
